import Mathlib

/-!
# OSXZip `ziputil.c`: a shallow embedding and its verified properties

* C strings are lists of characters (the bytes before the terminating NUL);
  payload bytes are characters too.  Stack buffers are unbounded lists, so a
  `strcat` that would run past a `char[PATH_MAX]` buffer shows up as a result
  longer than the bound.
* `PATH_MAX` comes from `<limits.h>` and is a parameter of every function that
  uses it; `HANDLE_XATTRS`, defined on one platform only, is a Boolean
  parameter.  An `int` used as a success flag is a `Bool`.
* What the file system and the archive library answer is an input: for the
  compression, a tree of the answers found below the source path and a codec
  that accepts or refuses each call given the calls made so far; for the
  extraction, the entries the archive iterator yields and a system with a
  state that answers each call.  The calls made are part of the result.
* `NULL` arguments and a failing `strdup` are left out.
* For the round trip the answers come from two file systems: the source tree,
  where every answer is looked up at the path the code builds, and the
  destination, a state on which `mkdir`, `fopen`, `fwrite`, `chmod` and
  `symlink` act as POSIX defines them, permission bits included.

The definitions come first, the theorems after them.
-/

namespace OSXZip

/-- A C string: the characters before the terminating NUL. -/
abbrev CStr := List Char

/-! ## libc string helpers used by `ziputil.c` -/

/-- `strrchr(s, c)`: the suffix of `s` that starts at the last `c`, if any. -/
def strrchr : CStr → Char → Option CStr
  | [], _ => none
  | x :: xs, c =>
    match strrchr xs c with
    | some r => some r
    | none => if x = c then some (x :: xs) else none

/-- `strstr(hay, needle)`: the suffix of `hay` that starts at the first
occurrence of `needle`, if any. -/
def strstr : CStr → CStr → Option CStr
  | [], needle => if needle.isEmpty then some [] else none
  | x :: xs, needle =>
    if needle.isPrefixOf (x :: xs) then some (x :: xs) else strstr xs needle

/-! ## `combine_paths` -/

/-- The `while` loop of `combine_paths`: `path` is the buffer so far, the list
holds the variadic arguments still to be read (up to the `NULL`). -/
def combine_paths_loop (PATH_MAX : Nat) : CStr → List CStr → Bool × CStr
  | path, [] => (true, path)
  | path, s :: rest =>
    let len := path.length
    if 0 < len then
      if (len : Int) > (PATH_MAX : Int) - 2 then
        (false, [])
      else
        let path1 := if path.getLast? ≠ some '/' then path ++ ['/'] else path
        match s with
        | '/' :: s1 => combine_paths_loop PATH_MAX (path1 ++ s1) rest
        | _ => combine_paths_loop PATH_MAX (path1 ++ s) rest
    else
      match s with
      | '/' :: s1 => combine_paths_loop PATH_MAX (path ++ s1) rest
      | _ => combine_paths_loop PATH_MAX (path ++ s) rest

/-- `combine_paths(path, s1, ..., sn, NULL)`: the returned flag and the final
content of `path`. -/
def combine_paths (PATH_MAX : Nat) (segs : List CStr) : Bool × CStr :=
  combine_paths_loop PATH_MAX ['/'] segs

/-- The path `/s1/s2/.../sn` the documentation of `combine_paths` promises. -/
def joined (segs : List CStr) : CStr :=
  segs.flatMap (fun s => '/' :: s)

/-- Gives the `i`-th segment a trailing separator when the `i`-th mark is set;
segments beyond the marks are left as they are. -/
def withTrailing : List Bool → List CStr → List CStr
  | b :: bs, s :: ss => (if b then s ++ ['/'] else s) :: withTrailing bs ss
  | _, ss => ss

/-- No two consecutive separators. -/
def NoDoubleSep (s : CStr) : Prop :=
  List.Chain' (fun a b => ¬ (a = '/' ∧ b = '/')) s

/-- Drops one leading separator, as the last `if` of the loop body does. -/
def stripLead (s : CStr) : CStr :=
  match s with
  | '/' :: t => t
  | _ => s

/-- The text of a segment: the segment without one leading and one trailing
separator. -/
def segText (s : CStr) : CStr :=
  if (stripLead s).getLast? = some '/' then (stripLead s).dropLast else stripLead s

/-- The text of a segment followed by one separator; nothing for a segment
without text. -/
def segPiece (s : CStr) : CStr :=
  if (segText s).isEmpty then [] else segText s ++ ['/']

/-- The texts of the segments that have one, each followed by one separator. -/
def textsWithSep (segs : List CStr) : CStr :=
  segs.flatMap segPiece

/-- Adds a trailing separator unless there is one already. -/
def ensureSep (p : CStr) : CStr :=
  if p.getLast? = some '/' then p else p ++ ['/']

/-! ## Compression: `no_compression_file_ext`, `compress_file`, `compress_xattrs` -/

/-- `BUFFER_SIZE`. -/
def BUFFER_SIZE : Nat := 1024 * 16

/-- `ZIP_RAW_EXTENTIONS`. -/
def ZIP_RAW_EXTENTIONS : CStr := ".png|.zip|.gz|.mpg|.mov|.rar|".toList

/-- `no_compression_file_ext(filename)`. -/
def no_compression_file_ext (filename : CStr) : Bool :=
  match strrchr filename '.' with
  | some ext =>
    match strstr ZIP_RAW_EXTENTIONS ext with
    | some ep => ep.get? ext.length == some '|'
    | none => false
  | none => false

/-- The extensions the table `ZIP_RAW_EXTENTIONS` lists. -/
def rawExtensions : List CStr :=
  [".png".toList, ".zip".toList, ".gz".toList, ".mpg".toList, ".mov".toList, ".rar".toList]

/-- The text starting at the last `.` of the name is, in full, one of the
listed extensions. -/
def HasRawExtension (name : CStr) : Prop :=
  ∃ pre e, name = pre ++ '.' :: e ∧ '.' ∉ e ∧ ('.' :: e) ∈ rawExtensions

/-- `S_IFMT` of `<sys/stat.h>`: the file-type bits of a mode. -/
def S_IFMT : Nat := 0o170000

/-- `S_IFDIR` of `<sys/stat.h>`. -/
def S_IFDIR : Nat := 0o040000

/-- `S_IFREG` of `<sys/stat.h>`. -/
def S_IFREG : Nat := 0o100000

/-- `S_IFLNK` of `<sys/stat.h>`. -/
def S_IFLNK : Nat := 0o120000

/-- `S_ISDIR(m)` of `<sys/stat.h>`. -/
def S_ISDIR (m : Nat) : Bool := (m &&& S_IFMT) == S_IFDIR

/-- `S_ISREG(m)` of `<sys/stat.h>`. -/
def S_ISREG (m : Nat) : Bool := (m &&& S_IFMT) == S_IFREG

/-- `S_ISLNK(m)` of `<sys/stat.h>`. -/
def S_ISLNK (m : Nat) : Bool := (m &&& S_IFMT) == S_IFLNK

/-- `Z_DEFLATED` of `zlib.h`. -/
def Z_DEFLATED : Nat := 8

/-- A value stored into a `size_t` (64 bits). -/
def to_size_t (r : Int) : Nat := (r % 2 ^ 64).toNat

/-- The calls made on the archive being written (`zip.h`): the arguments
`ziputil.c` chooses are recorded, `tm_t` standing for the date fields that
`filetime` derives from it. -/
inductive ZipCall where
  | zipOpenNewFileInZip2 (filename : CStr) (tm_t : Int) (external_fa : Nat)
      (method : Nat) (level : Int)
  | zipWriteInFileInZip (buf : List Char) (len : Nat)
  | zipCloseFileInZip
  | zipClose
  deriving DecidableEq, Repr

/-- The archive codec is a black box: whether a call returns `ZIP_OK` may depend
on every call made so far, the last of which is the call in question. -/
abbrev Codec := List ZipCall → Bool

/-- What the system calls of `compress_file` return for one source path. -/
structure Source where
  /-- `s.st_mode` after the `lstat` of `filetime` -/
  st_mode : Nat
  /-- `tm_t` in `filetime`: `st_mtime`, or `0` when `lstat` failed -/
  tm_t : Int
  /-- the value `readlink` returns -/
  readlink_ret : Int
  /-- the content of `read_buf` after `readlink` -/
  link_buf : List Char
  /-- whether `fopen(full_path, "r")` returns a stream -/
  fopen_ok : Bool
  /-- the successive `fread` results: the bytes read and whether `feof(fin)`
  is non-zero afterwards; past the end of the list `fread` reads nothing and
  the stream is at end of file -/
  reads : List (List Char × Bool)
  deriving DecidableEq, Repr

/-- The `do ... while (size_read > 0)` loop of `compress_file`: the flag
`success` and the calls made. -/
def compress_file_loop (codec : Codec) : List (List Char × Bool) → List ZipCall →
    Bool × List ZipCall
  | [], zf => (true, zf)
  | (chunk, eof) :: rest, zf =>
    let size_read := chunk.length
    if size_read < BUFFER_SIZE && !eof then
      (false, zf)
    else if 0 < size_read then
      let zf1 := zf ++ [ZipCall.zipWriteInFileInZip chunk size_read]
      if !codec zf1 then (false, zf1)
      else compress_file_loop codec rest zf1
    else
      (true, zf)

/-- `compress_file(zf, relative_path, full_path, level, read_buf)`: `zf` is the
list of calls made on the archive so far, `src` what the system calls on
`full_path` return. -/
def compress_file (codec : Codec) (zf : List ZipCall) (relative_path : CStr)
    (src : Source) (level : Int) : Bool × List ZipCall :=
  let external_fa := src.st_mode * 2 ^ 16 % 2 ^ 64
  if S_ISLNK (external_fa / 2 ^ 16) then
    let size_read := to_size_t src.readlink_ret
    if size_read ≤ 0 then
      (false, zf ++ [ZipCall.zipCloseFileInZip])
    else
      let zf1 := zf ++ [ZipCall.zipOpenNewFileInZip2 relative_path src.tm_t external_fa 0 0]
      if !codec zf1 then (false, zf1)
      else
        let zf2 := zf1 ++ [ZipCall.zipWriteInFileInZip src.link_buf size_read]
        (codec zf2, zf2 ++ [ZipCall.zipCloseFileInZip])
  else
    let level1 := if no_compression_file_ext relative_path then 0 else level
    let zf1 := zf ++ [ZipCall.zipOpenNewFileInZip2 relative_path src.tm_t external_fa
      Z_DEFLATED level1]
    if !codec zf1 then (false, zf1)
    else if !src.fopen_ok then (false, zf1 ++ [ZipCall.zipCloseFileInZip])
    else
      let r := compress_file_loop codec src.reads zf1
      (r.1, r.2 ++ [ZipCall.zipCloseFileInZip])

/-- The entry name `compress_xattrs` builds in `appledouble_path`. -/
def appledouble_path (relative_path : CStr) : CStr :=
  match strrchr relative_path '/' with
  | some p =>
    let filename := "._".toList ++ p.tail
    let dirname := relative_path.take (relative_path.length - p.tail.length)
    "__MACOSX/".toList ++ dirname ++ filename
  | none =>
    let filename := "._".toList ++ relative_path
    "__MACOSX/".toList ++ filename

/-- `compress_xattrs(zf, relative_path, full_path, level, read_buf)`: `packed`
is what `pack_appledouble_file` returns, `none` for `NULL`, else what the
system calls on the temporary file return. -/
def compress_xattrs (codec : Codec) (zf : List ZipCall) (relative_path : CStr)
    (packed : Option Source) (level : Int) : Bool × List ZipCall :=
  match packed with
  | none => (true, zf)
  | some tmp_file => compress_file codec zf (appledouble_path relative_path) tmp_file level

/-- `get_last_path_component(path, component)`: the content of `component`
afterwards, given its content before (the caller passes an uninitialised
buffer). -/
def get_last_path_component (path : CStr) (component : CStr) : CStr :=
  let tmp := if path.getLast? = some '/' then path.dropLast else path
  match strrchr tmp '/' with
  | some p => p.tail
  | none => component

/-- The test `no_compression_file_ext` makes on the extension `ext` that
`strrchr(filename, '.')` found. -/
def rawTableTest (ext : CStr) : Bool :=
  match strstr ZIP_RAW_EXTENTIONS ext with
  | some ep => ep.get? ext.length == some '|'
  | none => false

/-! ## Extraction: sidecar names -/

/-- The test `(filename[0] == '_') && (strstr(filename, "__MACOSX/") == filename)`
of `unzip_current_file`, which sets `unzipping_appledouble`. -/
def is_appledouble_name (filename : CStr) : Bool :=
  filename.head? == some '_' && strstr filename "__MACOSX/".toList == some filename

/-- The sidecar branch of `unzip_current_file` (under `HANDLE_XATTRS`) on the
entry name `filename`: the content of `real_destfile` when the branch ends in
`goto skip_makedirs`, `none` when the code falls through to `make_dirs`. -/
def real_destfile (destination_dir filename : CStr) : Option CStr :=
  if is_appledouble_name filename then
    let tmp := filename.drop 9
    match strrchr tmp '/' with
    | some p1 =>
      let p := p1.tail
      let tmp1 := tmp.take (tmp.length - p1.length)
      if 2 < p.length && p.get? 0 == some '.' && p.get? 1 == some '_' then
        some (destination_dir ++ tmp1 ++ ['/'] ++ p.drop 2)
      else none
    | none =>
      if 2 < tmp.length && tmp.get? 0 == some '.' && tmp.get? 1 == some '_' then
        some (destination_dir ++ tmp.drop 2)
      else none
  else none

/-! ## Compression: `compress_directory`, `compress_path` -/

/-- The `d_type` of a directory entry, as far as `compress_directory` tells the
values apart; `DT_UNKNOWN` stands for every other value. -/
inductive DType where
  | DT_DIR
  | DT_REG
  | DT_LNK
  | DT_UNKNOWN
  deriving DecidableEq, Repr

/-- What the file system shows below one path: a directory that `readdir`
lists entry by entry (`opendir_ok` tells whether `opendir` succeeds on it), or
anything else, with the `d_type` that `readdir` reports for it and what the
system calls on it return (`packed`: what `pack_appledouble_file` returns,
`none` for `NULL`).  A `dir` has `d_type == DT_DIR`; `opendir` fails on a
`file`. -/
inductive Node where
  | file (d_type : DType) (src : Source) (packed : Option Source)
  | dir (opendir_ok : Bool) (ents : List (CStr × Node))

/-- The test for the pseudo-entries `.` and `..` in `compress_directory`. -/
def is_dot_or_dotdot (d_name : CStr) : Bool :=
  d_name.get? 0 == some '.' &&
    (d_name.get? 1 == none || (d_name.get? 1 == some '.' && d_name.get? 2 == none))

mutual
/-- `compress_directory(zf, relative_path, full_path, level, read_buf)` on the
directory `node` found at `full_path`; `HANDLE_XATTRS` tells whether the macro
is defined. -/
def compress_directory (PATH_MAX : Nat) (HANDLE_XATTRS : Bool) (codec : Codec)
    (zf : List ZipCall) (relative_path full_path : CStr) (level : Int) :
    Node → Bool × List ZipCall
  | .file _ _ _ => (false, zf)
  | .dir opendir_ok ents =>
    if !opendir_ok then (false, zf)
    else compress_directory_loop PATH_MAX HANDLE_XATTRS codec zf relative_path full_path
      level ents
/-- The `readdir` loop of `compress_directory` over the entries still to be
read. -/
def compress_directory_loop (PATH_MAX : Nat) (HANDLE_XATTRS : Bool) (codec : Codec)
    (zf : List ZipCall) (relative_path full_path : CStr) (level : Int) :
    List (CStr × Node) → Bool × List ZipCall
  | [] => (true, zf)
  | (d_name, node) :: rest =>
    if is_dot_or_dotdot d_name then
      compress_directory_loop PATH_MAX HANDLE_XATTRS codec zf relative_path full_path level rest
    else
      let new_relative_path := combine_paths PATH_MAX [relative_path, d_name]
      if !new_relative_path.1 then (false, zf)
      else
        let new_full_path := combine_paths PATH_MAX [full_path, d_name]
        if !new_full_path.1 then (false, zf)
        else
          match node with
          | .dir opendir_ok ents =>
            let r := compress_directory PATH_MAX HANDLE_XATTRS codec zf
              (new_relative_path.2 ++ ['/']) (new_full_path.2 ++ ['/']) level
              (.dir opendir_ok ents)
            if !r.1 then (false, r.2)
            else compress_directory_loop PATH_MAX HANDLE_XATTRS codec r.2 relative_path
              full_path level rest
          | .file DType.DT_DIR _ _ => (false, zf)
          | .file DType.DT_UNKNOWN _ _ =>
            compress_directory_loop PATH_MAX HANDLE_XATTRS codec zf relative_path full_path
              level rest
          | .file _ src packed =>
            let r := compress_file codec zf new_relative_path.2 src level
            if !r.1 then (false, r.2)
            else if HANDLE_XATTRS then
              let rx := compress_xattrs codec r.2 new_relative_path.2 packed level
              if !rx.1 then (false, rx.2)
              else compress_directory_loop PATH_MAX HANDLE_XATTRS codec rx.2 relative_path
                full_path level rest
            else compress_directory_loop PATH_MAX HANDLE_XATTRS codec r.2 relative_path
              full_path level rest
end

/-- What the calls of `compress_path` on `source` return. -/
structure PathWorld where
  /-- whether `lstat(source, &st)` succeeds -/
  lstat_ok : Bool
  /-- `st.st_mode` -/
  st_mode : Nat
  /-- whether `zipOpen` returns an archive -/
  zipOpen_ok : Bool
  /-- whether `malloc(BUFFER_SIZE)` returns a buffer -/
  malloc_ok : Bool
  /-- the content of the uninitialised buffer `relative_path` -/
  relative_path : CStr
  /-- `source` read as a file or symlink -/
  src : Source
  /-- what `pack_appledouble_file(source)` returns -/
  packed : Option Source
  /-- `source` read as a directory -/
  tree : Node

/-- `compress_path(source, zipfile, level)`: the returned flag and the calls
made on the archive. -/
def compress_path (PATH_MAX : Nat) (HANDLE_XATTRS : Bool) (codec : Codec) (w : PathWorld)
    (source : CStr) (level : Int) : Bool × List ZipCall :=
  if !w.lstat_ok then (false, [])
  else if !w.zipOpen_ok then (false, [])
  else if !w.malloc_ok then (false, [ZipCall.zipClose])
  else
    let relative_path := get_last_path_component source w.relative_path
    if S_ISDIR w.st_mode then
      let r := compress_directory PATH_MAX HANDLE_XATTRS codec [] (relative_path ++ ['/'])
        source level w.tree
      (r.1, r.2 ++ [ZipCall.zipClose])
    else if S_ISREG w.st_mode || S_ISLNK w.st_mode then
      let r := compress_file codec [] relative_path w.src level
      if HANDLE_XATTRS && r.1 then
        let rx := compress_xattrs codec r.2 relative_path w.packed level
        (rx.1, rx.2 ++ [ZipCall.zipClose])
      else (r.1, r.2 ++ [ZipCall.zipClose])
    else (false, [ZipCall.zipClose])

/-! ## Extraction: `make_dirs`, `unzip_current_file`, `decompress_path` -/

/-- The system calls made while extracting, with the arguments `ziputil.c`
passes.  A stream is named by the path it was opened on. -/
inductive SysCall where
  | malloc (size : Nat)
  | stat (path : CStr)
  | mkdir (path : CStr) (mode : Nat)
  | fopen (path : CStr) (mode : CStr)
  | fwrite (path : CStr) (buf : List Char) (len : Nat)
  | fclose (path : CStr)
  | chmod (path : CStr) (mode : Nat)
  | symlink (target : CStr) (path : CStr)
  | unpack_appledouble_file (appledouble_path : CStr) (target_path : CStr)
  | unlink (path : CStr)
  deriving DecidableEq, Repr

/-- `EEXIST` of `<errno.h>`. -/
def EEXIST : Nat := 17

/-- The system as a black box with a state: a call changes the state and
returns a number.  `malloc`, `fopen`: `0` for `NULL`; `stat`: the `st_mode`
left in the buffer; `mkdir`: `0` on success, else the `errno` it sets;
`fwrite`: the count written; `unpack_appledouble_file`: the `int` it
returns. -/
structure System (σ : Type) where
  call : σ → SysCall → σ × Nat

/-- The `while ((p = strchr(p, '/')))` loop of `make_dirs`: `path` is the part
of the buffer before `p`, the list the characters from `p` on, `st_mode` the
mode in `st`. -/
def make_dirs_loop {σ : Type} (sys : System σ) : CStr → CStr → Nat → σ → σ × Bool
  | _, [], _, s => (s, true)
  | path, c :: rest, st_mode, s =>
    if c = '/' then
      let r := sys.call s (SysCall.mkdir path st_mode)
      if r.2 = 0 then make_dirs_loop sys (path ++ ['/']) rest st_mode r.1
      else if r.2 = EEXIST then
        let r2 := sys.call r.1 (SysCall.stat path)
        make_dirs_loop sys (path ++ ['/']) rest r2.2 r2.1
      else (r.1, false)
    else make_dirs_loop sys (path ++ [c]) rest st_mode s

/-- `make_dirs(base, relative)`; `none` is a `NULL` base. -/
def make_dirs {σ : Type} (sys : System σ) (base : Option CStr) (relative : CStr) (s : σ) :
    σ × Bool :=
  let r0 : σ × Nat := match base with
    | none => (s, 0)
    | some b => sys.call s (SysCall.stat b)
  let base1 : CStr := match base with
    | none => ['/']
    | some b => b
  let p := stripLead relative
  let r1 := sys.call r0.1 (SysCall.malloc (base1.length + p.length + 2))
  if r1.2 = 0 then (r1.1, false)
  else
    let path := if base1.getLast? ≠ some '/' then base1 ++ ['/'] else base1
    make_dirs_loop sys path p r0.2 r1.1

/-- What the calls on the archive being read (`unzip.h`) return while one
entry is the current file. -/
structure UnzEntry where
  /-- whether `unzGetCurrentFileInfo` returns `UNZ_OK` -/
  info_ok : Bool
  /-- the entry name it stores in `filename` -/
  filename : CStr
  /-- `uzi.external_fa` -/
  external_fa : Nat
  /-- whether `unzOpenCurrentFile` returns `UNZ_OK` -/
  open_ok : Bool
  /-- the successive results of `unzReadCurrentFile` when every call asks for
  `len` bytes: the value returned and the content of `read_buf`; past the end
  of the list the call returns `0` -/
  reads : Nat → List (Int × List Char)
  /-- the name `mktemp` puts in `tmp_file`, `none` when it fails -/
  mktemp : Option CStr
  /-- the content of the uninitialised buffer `real_destfile` -/
  real_destfile : CStr

/-- The `do ... while (size_read > 0)` loop of `unzip_current_file`: whether it
ran to the end (`success = 1` is reached). -/
def unzip_write_loop {σ : Type} (sys : System σ) (destfile : CStr) :
    List (Int × List Char) → σ → σ × Bool
  | [], s => (s, true)
  | (ret, buf) :: rest, s =>
    let size_read := to_size_t ret
    if 0 < size_read then
      let r := sys.call s (SysCall.fwrite destfile buf size_read)
      if r.2 ≠ size_read then (r.1, false)
      else unzip_write_loop sys destfile rest r.1
    else (s, true)

/-- The part of `unzip_current_file` from the label `skip_makedirs` on;
`unzipping_appledouble` holds the target when the flag is set. -/
def unzip_write_file {σ : Type} (sys : System σ) (e : UnzEntry) (destfile : CStr)
    (external_fa : Nat) (unzipping_appledouble : Option CStr) (s : σ) : σ × Bool :=
  let r := sys.call s (SysCall.fopen destfile ['w'])
  if r.2 = 0 then (r.1, false)
  else
    let w := unzip_write_loop sys destfile (e.reads BUFFER_SIZE) r.1
    let s1 := if w.2 && 0 < external_fa then (sys.call w.1 (SysCall.chmod destfile external_fa)).1
      else w.1
    let s2 := (sys.call s1 (SysCall.fclose destfile)).1
    match unzipping_appledouble with
    | some target =>
      let u := sys.call s2 (SysCall.unpack_appledouble_file destfile target)
      ((sys.call u.1 (SysCall.unlink destfile)).1, u.2 ≠ 0)
    | none => (s2, w.2)

/-- `unzip_current_file(unzf, destination_dir, read_buf)` with `e` the current
file. -/
def unzip_current_file {σ : Type} (sys : System σ) (HANDLE_XATTRS : Bool) (e : UnzEntry)
    (destination_dir : CStr) (s : σ) : σ × Bool :=
  if !e.info_ok then (s, false)
  else
    let destfile := destination_dir ++ e.filename
    let external_fa := e.external_fa / 2 ^ 16
    if S_ISDIR external_fa then (s, true)
    else if !e.open_ok then (s, false)
    else if S_ISLNK external_fa then
      match e.reads (BUFFER_SIZE - 1) with
      | [] => (s, false)
      | (ret, buf) :: _ =>
        let size_read := to_size_t ret
        if 0 < size_read then
          ((sys.call s (SysCall.symlink (buf.take size_read) destfile)).1, true)
        else (s, false)
    else
      let unzipping_appledouble := HANDLE_XATTRS && is_appledouble_name e.filename
      match (if HANDLE_XATTRS then real_destfile destination_dir e.filename else none) with
      | some target =>
        let r := sys.call s (SysCall.fopen target ['r'])
        let s1 := if r.2 = 0 then (sys.call r.1 (SysCall.fopen target ['w'])).1 else r.1
        let s2 := (sys.call s1 (SysCall.fclose target)).1
        match e.mktemp with
        | none => (s2, false)
        | some tmp_file => unzip_write_file sys e tmp_file external_fa (some target) s2
      | none =>
        let m := make_dirs sys (some destination_dir) e.filename s
        if !m.2 then (m.1, false)
        else unzip_write_file sys e destfile external_fa
          (if unzipping_appledouble then some e.real_destfile else none) m.1

/-- The status the archive iterator returns once it is past the last entry. -/
inductive UnzEnd where
  | UNZ_END_OF_LIST_OF_FILE
  | error (code : Int)
  deriving DecidableEq, Repr

/-- What the calls on the archive being read return: whether `unzOpen` returns
an archive, the entries the iterator reaches with `UNZ_OK`, and the status it
returns after the last of them (from `unzGoToFirstFile` when there is none). -/
structure UnzWorld where
  unzOpen_ok : Bool
  entries : List UnzEntry
  last : UnzEnd

/-- The `do ... while` loop of `decompress_path`, `e` being the current file
and `rest` the entries after it. -/
def decompress_loop {σ : Type} (sys : System σ) (HANDLE_XATTRS : Bool) (destination : CStr)
    (last : UnzEnd) : UnzEntry → List UnzEntry → σ → σ × Bool
  | e, rest, s =>
    let r := unzip_current_file sys HANDLE_XATTRS e destination s
    if !r.2 then (r.1, false)
    else
      match rest with
      | [] => (r.1, decide (last = UnzEnd.UNZ_END_OF_LIST_OF_FILE))
      | e1 :: rest1 => decompress_loop sys HANDLE_XATTRS destination last e1 rest1 r.1

/-- `decompress_path(zipfile, destination)`. -/
def decompress_path {σ : Type} (sys : System σ) (HANDLE_XATTRS : Bool) (w : UnzWorld)
    (destination : CStr) (s : σ) : σ × Bool :=
  let m := make_dirs sys none destination s
  if !m.2 then (m.1, false)
  else if !w.unzOpen_ok then (m.1, false)
  else
    let b := sys.call m.1 (SysCall.malloc BUFFER_SIZE)
    if b.2 = 0 then (b.1, false)
    else
      match w.entries with
      | [] => (b.1, false)
      | e :: rest => decompress_loop sys HANDLE_XATTRS destination w.last e rest b.1

/-- Extracting every entry of a list in stored order, whatever the results:
the state reached. -/
def extract_all {σ : Type} (sys : System σ) (HANDLE_XATTRS : Bool) (destination : CStr) :
    List UnzEntry → σ → σ
  | [], s => s
  | e :: rest, s =>
    extract_all sys HANDLE_XATTRS destination rest
      (unzip_current_file sys HANDLE_XATTRS e destination s).1

/-! ## The round trip: the source tree and what the walk finds of it -/

/-- A directory tree made of regular files, symlinks and nested
subdirectories; `st_mode` and `tm_t` are what `lstat` reports. -/
inductive Tree where
  | reg (st_mode : Nat) (tm_t : Int) (content : List Char)
  | lnk (st_mode : Nat) (tm_t : Int) (target : CStr)
  | dir (st_mode : Nat) (ents : List (CStr × Tree))

/-- Cuts a list into pieces of `n` elements, the last piece being the shorter
rest (empty when the length is a multiple of `n`); `fuel` bounds the number of
full pieces. -/
def chunks {α : Type} (n : Nat) : Nat → List α → List (List α)
  | 0, c => [c]
  | fuel + 1, c => if c.length < n then [c] else c.take n :: chunks n fuel (c.drop n)

/-- What `fread(read_buf, 1, BUFFER_SIZE, fin)` and `feof(fin)` return, call
after call, on a readable file with the given content: full buffers, then the
shorter rest with the end-of-file indicator set. -/
def fread_results (content : List Char) : List (List Char × Bool) :=
  (chunks BUFFER_SIZE content.length content).map
    (fun ch => (ch, decide (ch.length < BUFFER_SIZE)))

/-- What the system calls of `compress_file` return on a readable regular
file. -/
def Source.ofReg (st_mode : Nat) (tm_t : Int) (content : List Char) : Source :=
  { st_mode := st_mode, tm_t := tm_t, readlink_ret := -1, link_buf := [],
    fopen_ok := true, reads := fread_results content }

/-- What the system calls of `compress_file` return on a readable symlink:
`readlink` stores the target, cut to the size of the buffer. -/
def Source.ofLnk (st_mode : Nat) (tm_t : Int) (target : CStr) : Source :=
  { st_mode := st_mode, tm_t := tm_t, readlink_ret := (target.take BUFFER_SIZE).length,
    link_buf := target.take BUFFER_SIZE, fopen_ok := false, reads := [] }

/-- What the system calls of `compress_file` return on a directory: `fopen`
opens it, `fread` reads nothing and the stream is not at end of file; the
time of a directory is not modelled. -/
def Source.ofDir (st_mode : Nat) : Source :=
  { st_mode := st_mode, tm_t := 0, readlink_ret := -1, link_buf := [],
    fopen_ok := true, reads := [([], false)] }

/-- What the system calls of `compress_file` return on a file or directory
that the process may not read: `fopen` fails. -/
def Source.ofUnreadable (st_mode : Nat) (tm_t : Int) : Source :=
  { st_mode := st_mode, tm_t := tm_t, readlink_ret := -1, link_buf := [], fopen_ok := false,
    reads := [] }

/-- What the system calls of `compress_file` return on a path where nothing
is: `lstat` fails and leaves `st_mode` as it was, taken to be `0`, `readlink`
and `fopen` fail. -/
def Source.missing : Source :=
  { st_mode := 0, tm_t := 0, readlink_ret := -1, link_buf := [], fopen_ok := false,
    reads := [] }

/-- The components of a path, `cur` being the component read so far: the
non-empty pieces between separators. -/
def componentsFrom (cur : CStr) : CStr → List CStr
  | [] => if cur.isEmpty then [] else [cur]
  | c :: rest =>
    if c = '/' then
      if cur.isEmpty then componentsFrom [] rest else cur :: componentsFrom [] rest
    else componentsFrom (cur ++ [c]) rest

/-- The components of a path. -/
def components (path : CStr) : List CStr :=
  componentsFrom [] path

/-- Where the system looks for a path: at its components when it begins with a
separator, else at its components below the working directory `cwd`.  The
components `.` and `..` are given no meaning of their own. -/
def resolve (cwd : List CStr) (path : CStr) : List CStr :=
  if path.head? = some '/' then components path else cwd ++ components path

/-- What the process finds in a tree under a list of names: as `find`, but a
directory is passed only if the process may search it (`0100`). -/
def Tree.access : Tree → List CStr → Option Tree
  | t, [] => some t
  | .dir st_mode ents, c :: cs =>
    if st_mode.testBit 6 then
      match ents.lookup c with
      | some t => Tree.access t cs
      | none => none
    else none
  | _, _ :: _ => none

mutual
/-- The number of directory levels of a tree. -/
def Tree.depth : Tree → Nat
  | .reg _ _ _ => 0
  | .lnk _ _ _ => 0
  | .dir _ ents => Tree.depthEnts ents + 1
/-- The number of directory levels below the entries of a directory. -/
def Tree.depthEnts : List (CStr × Tree) → Nat
  | [] => 0
  | (_, t) :: rest => max (Tree.depth t) (Tree.depthEnts rest)
end

/-- The `d_type` that `readdir` reports for an entry. -/
def Tree.d_type : Tree → DType
  | .reg _ _ _ => DType.DT_REG
  | .lnk _ _ _ => DType.DT_LNK
  | .dir _ _ => DType.DT_DIR

/-- The file system that `compress_path` reads: the tree `tree` is found at
the place `place`, which is reached, and nothing else is there; it does not
change while it is read (the archive is written elsewhere); the process owns
the tree and is not the superuser, so the owner bits of `st_mode` tell what it
may search (`0100`) and read (`0400`); relative paths are looked up from
`cwd`; `pack` is what `pack_appledouble_file` returns for a path (`none` for
`NULL`). -/
structure SourceFs where
  cwd : List CStr
  place : List CStr
  tree : Tree
  pack : CStr → Option Source
  /-- whether `readdir` fills in `d_type`; it reports `DT_UNKNOWN` otherwise -/
  d_types : Bool

/-- What `lstat` finds at a path. -/
def SourceFs.lookup (fs : SourceFs) (path : CStr) : Option Tree :=
  if fs.place.isPrefixOf (resolve fs.cwd path) then
    fs.tree.access ((resolve fs.cwd path).drop fs.place.length)
  else none

/-- What the system calls of `compress_file` return for a path. -/
def SourceFs.source (fs : SourceFs) (path : CStr) : Source :=
  match fs.lookup path with
  | some (.reg st_mode tm_t content) =>
    if st_mode.testBit 8 then Source.ofReg st_mode tm_t content
    else Source.ofUnreadable st_mode tm_t
  | some (.lnk st_mode tm_t target) => Source.ofLnk st_mode tm_t target
  | some (.dir st_mode _) =>
    if st_mode.testBit 8 then Source.ofDir st_mode else Source.ofUnreadable st_mode 0
  | none => Source.missing

/-- A regular file or symlink of a tree with the name it has below a prefix. -/
inductive Leaf where
  | reg (name : CStr) (st_mode : Nat) (tm_t : Int) (content : List Char)
  | lnk (name : CStr) (st_mode : Nat) (tm_t : Int) (target : CStr)
  deriving DecidableEq, Repr

mutual
/-- The regular files and symlinks of a tree found at the name `name`, in
traversal order; a directory contributes those of its entries and nothing of
its own. -/
def Tree.leaves (name : CStr) : Tree → List Leaf
  | .reg st_mode tm_t content => [Leaf.reg name st_mode tm_t content]
  | .lnk st_mode tm_t target => [Leaf.lnk name st_mode tm_t target]
  | .dir _ ents => Tree.leavesOf (name ++ ['/']) ents
/-- The regular files and symlinks below the entries of a directory whose
name, separator included, is `pre`. -/
def Tree.leavesOf (pre : CStr) : List (CStr × Tree) → List Leaf
  | [] => []
  | (d_name, t) :: rest => Tree.leaves (pre ++ d_name) t ++ Tree.leavesOf pre rest
end

mutual
/-- The conditions on a tree found at a path of `n` characters: a regular file
has the type bits of one and may be read (`0400`), a symlink has the type bits
of one, modes fit the 16 bits of `mode_t`, a symlink target is not empty and
shorter than the read buffer, a directory may be read and searched (`0400`,
`0100`). -/
def Tree.WellFormed (PATH_MAX : Nat) (n : Nat) : Tree → Prop
  | .reg st_mode _ _ => S_ISREG st_mode = true ∧ st_mode < 2 ^ 16 ∧ st_mode.testBit 8 = true
  | .lnk st_mode _ target =>
    S_ISLNK st_mode = true ∧ st_mode < 2 ^ 16 ∧ 0 < target.length ∧ target.length < BUFFER_SIZE
  | .dir st_mode ents =>
    st_mode.testBit 8 = true ∧ st_mode.testBit 6 = true ∧
      Tree.WellFormedEnts PATH_MAX (n + 1) ents
/-- The conditions on the entries of a directory whose path, separator
included, has `n` characters: every name is non-empty, has no separator, is
neither `.` nor `..` and is the name of no later entry, and the path of every
entry, with a separator and the terminator, fits `PATH_MAX`. -/
def Tree.WellFormedEnts (PATH_MAX : Nat) (n : Nat) : List (CStr × Tree) → Prop
  | [] => True
  | (d_name, t) :: rest =>
    (d_name ≠ [] ∧ '/' ∉ d_name ∧ is_dot_or_dotdot d_name = false ∧
      n + d_name.length + 2 ≤ PATH_MAX ∧ ∀ e ∈ rest, e.1 ≠ d_name) ∧
    Tree.WellFormed PATH_MAX (n + d_name.length) t ∧ Tree.WellFormedEnts PATH_MAX n rest
end

/-! ## The round trip: the archive -/

/-- Modelled from the spec: the codec operation "read raw bytes".  Calls of
`unzReadCurrentFile` that ask for `len` bytes return the payload piece by
piece, each call as many bytes as are left, up to `len`. -/
def unz_reads (payload : List Char) (len : Nat) : List (Int × List Char) :=
  (chunks len payload.length payload).map (fun ch => ((ch.length : Int), ch))

/-- The directory prefix that `combine_paths` makes of its first argument. -/
def dirPrefix (a : CStr) : CStr :=
  ensureSep ('/' :: stripLead a)

/-! ## The round trip: the destination file system -/

/-- The name of a leaf. -/
def Leaf.name : Leaf → CStr
  | .reg name _ _ _ => name
  | .lnk name _ _ _ => name

/-- The system that records the calls made and answers them with `ret`. -/
def traceSystem (ret : List SysCall → SysCall → Nat) : System (List SysCall) :=
  { call := fun s c => (s ++ [c], ret s c) }

/-- The answers of a system on which every call succeeds: allocations and
`fopen` return a pointer, `fwrite` writes all it is given, `mkdir` creates the
directory, `stat` reports a directory of mode `0755`. -/
def idealRet : List SysCall → SysCall → Nat
  | _, SysCall.malloc _ => 1
  | _, SysCall.stat _ => 0o040755
  | _, SysCall.fopen _ _ => 1
  | _, SysCall.fwrite _ _ len => len
  | _, SysCall.unpack_appledouble_file _ _ => 1
  | _, _ => 0

/-- A readable regular file with the content `hi`. -/
def readableFile : Source :=
  Source.ofReg 0o100644 0 "hi".toList

/-- A regular file that `fopen` cannot open. -/
def unreadableFile : Source :=
  { st_mode := 0o100000, tm_t := 0, readlink_ret := -1, link_buf := [], fopen_ok := false,
    reads := [] }

/-- An archive entry for a regular file `name` with the payload `hi`;
`open_ok` tells whether `unzOpenCurrentFile` succeeds on it. -/
def sampleUnzEntry (name : CStr) (open_ok : Bool) : UnzEntry :=
  { info_ok := true, filename := name, external_fa := 0o100644 * 2 ^ 16, open_ok := open_ok,
    reads := unz_reads "hi".toList, mktemp := none, real_destfile := [] }

/-! ## Lemmas on `combine_paths` -/

theorem joined_nil : joined [] = [] := rfl

theorem joined_cons (s : CStr) (rest : List CStr) :
    joined (s :: rest) = '/' :: s ++ joined rest := by
  simp [joined, List.flatMap, List.flatten]

theorem joined_append (xs ys : List CStr) : joined (xs ++ ys) = joined xs ++ joined ys := by
  induction xs with
  | nil => simp [joined_nil]
  | cons x xs ih => simp [joined_cons, ih]

theorem ensureSep_ne_nil (p : CStr) : ensureSep p ≠ [] := by
  unfold ensureSep
  split
  · intro h
    simp_all
  · simp

theorem ensureSep_concat (q : CStr) : ensureSep (q ++ ['/']) = q ++ ['/'] := by
  simp [ensureSep]

theorem ensureSep_of_ne (q : CStr) (h : q.getLast? ≠ some '/') : ensureSep q = q ++ ['/'] := by
  simp [ensureSep, h]

/-- One iteration of the loop on a non-empty buffer that passes the length test. -/
theorem combine_paths_loop_cons (PM : Nat) (path s : CStr) (rest : List CStr)
    (hp : path ≠ []) (hlen : path.length + 2 ≤ PM) :
    combine_paths_loop PM path (s :: rest)
      = combine_paths_loop PM (ensureSep path ++ stripLead s) rest := by
  have h0 : 0 < path.length := List.length_pos.mpr hp
  have h1 : ¬ ((path.length : Int) > (PM : Int) - 2) := by omega
  conv_lhs => rw [combine_paths_loop.eq_def]
  simp only [h0, h1, if_true, if_false]
  unfold ensureSep stripLead
  by_cases hl : path.getLast? = some '/'
  · simp only [hl, ne_eq, not_true_eq_false, if_false, if_true]
    split <;> rfl
  · simp only [hl, ne_eq, not_false_eq_true, if_true, if_false]
    split <;> rfl

/-- One iteration of the loop on a non-empty buffer that fails the length test. -/
theorem combine_paths_loop_too_big (PM : Nat) (path s : CStr) (rest : List CStr)
    (hp : path ≠ []) (hlen : PM < path.length + 2) :
    combine_paths_loop PM path (s :: rest) = (false, []) := by
  have h0 : 0 < path.length := List.length_pos.mpr hp
  have h1 : (path.length : Int) > (PM : Int) - 2 := by omega
  rw [combine_paths_loop.eq_def]
  simp only [h0, h1, if_true]

theorem stripLead_of_not_mem (s : CStr) (h : '/' ∉ s) : stripLead s = s := by
  unfold stripLead
  split
  · simp at h
  · rfl

theorem stripLead_concat_of_not_mem (s : CStr) (hs : s ≠ []) (h : '/' ∉ s) :
    stripLead (s ++ ['/']) = s ++ ['/'] := by
  cases s with
  | nil => exact absurd rfl hs
  | cons c t =>
    have hc : c ≠ '/' := fun e => h (by simp [e])
    unfold stripLead
    split
    · rename_i heq
      simp at heq
      exact absurd heq.1 hc
    · rfl

theorem getLast?_append_sepfree (q s : CStr) (hs : s ≠ []) (h : '/' ∉ s) :
    (q ++ s).getLast? ≠ some '/' := by
  intro hl
  rw [List.getLast?_append_of_ne_nil q hs] at hl
  exact h (List.mem_of_getLast?_eq_some hl)

theorem withTrailing_nil (ss : List CStr) : withTrailing [] ss = ss := by
  cases ss <;> rfl

theorem length_joined_cons (s : CStr) (rest : List CStr) :
    (joined (s :: rest)).length = 1 + s.length + (joined rest).length := by
  simp [joined_cons]; omega

/-- The loop on separator-free non-empty segments, some of the non-final ones
marked with a trailing separator: `q` is the path built so far without its
trailing separator, the buffer holds `q` or `q/`. -/
theorem combine_paths_loop_marks (PM : Nat) :
    ∀ (segs : List CStr) (marks : List Bool) (path q : CStr),
      (path = q ++ ['/'] ∨ (path = q ∧ q ≠ [] ∧ q.getLast? ≠ some '/')) →
      segs ≠ [] → marks.length < segs.length →
      (∀ s ∈ segs, s ≠ [] ∧ '/' ∉ s) →
      q.length + (joined segs).length < PM →
      combine_paths_loop PM path (withTrailing marks segs) = (true, q ++ joined segs) := by
  intro segs
  induction segs with
  | nil => intro _ _ _ _ h; exact absurd rfl h
  | cons s rest ih =>
    intro marks path q hpath _ hmarks hsegs hlen
    have hs := hsegs s (by simp)
    have hrest : ∀ t ∈ rest, t ≠ [] ∧ '/' ∉ t := fun t ht => hsegs t (by simp [ht])
    have hslen : 1 ≤ s.length := List.length_pos.mpr hs.1
    rw [length_joined_cons] at hlen
    have hpne : path ≠ [] := by
      rcases hpath with h | ⟨h, hq, _⟩
      · simp [h]
      · simpa [h] using hq
    have hplen : path.length + 2 ≤ PM := by
      rcases hpath with h | ⟨h, _, _⟩
      · simp [h]; omega
      · simp [h]; omega
    have hens : ensureSep path = q ++ ['/'] := by
      rcases hpath with h | ⟨h, _, hl⟩
      · rw [h, ensureSep_concat]
      · rw [h, ensureSep_of_ne q hl]
    have hq1 : q ++ '/' :: s ≠ [] := by simp
    have hq1l : (q ++ '/' :: s).getLast? ≠ some '/' := by
      have := getLast?_append_sepfree (q ++ ['/']) s hs.1 hs.2
      simpa using this
    have hplain : ∀ (bs : List Bool), bs.length < rest.length ∨ (bs = [] ∧ rest = []) →
        combine_paths_loop PM (q ++ '/' :: s) (withTrailing bs rest)
          = (true, q ++ joined (s :: rest)) := by
      intro bs hbs
      rcases hbs with hbs | ⟨hb, hr⟩
      · have hrne : rest ≠ [] := by
          intro e; simp [e] at hbs
        have := ih bs (q ++ '/' :: s) (q ++ '/' :: s) (Or.inr ⟨rfl, hq1, hq1l⟩) hrne hbs hrest
          (by simp; omega)
        rw [this, joined_cons]; simp
      · subst hb; subst hr
        simp [withTrailing, combine_paths_loop, joined_cons, joined_nil]
    cases marks with
    | nil =>
      rw [withTrailing_nil, combine_paths_loop_cons PM path s rest hpne hplen, hens,
        stripLead_of_not_mem s hs.2]
      have h2 := hplain [] (by
        cases rest with
        | nil => exact Or.inr ⟨rfl, rfl⟩
        | cons t ts => exact Or.inl (by simp))
      rw [withTrailing_nil] at h2
      simpa using h2
    | cons b bs =>
      have hbs : bs.length < rest.length := by simpa using hmarks
      have hrne : rest ≠ [] := by
        intro e; simp [e] at hbs
      cases b with
      | false =>
        show combine_paths_loop PM path (s :: withTrailing bs rest) = _
        rw [combine_paths_loop_cons PM path s _ hpne hplen, hens, stripLead_of_not_mem s hs.2]
        have h2 := hplain bs (Or.inl hbs)
        simpa using h2
      | true =>
        show combine_paths_loop PM path ((s ++ ['/']) :: withTrailing bs rest) = _
        rw [combine_paths_loop_cons PM path _ _ hpne hplen, hens,
          stripLead_concat_of_not_mem s hs.1 hs.2]
        have := ih bs (q ++ ['/'] ++ (s ++ ['/'])) (q ++ '/' :: s) (Or.inl (by simp)) hrne hbs hrest
          (by simp; omega)
        rw [this, joined_cons]; simp

/-- Running the loop over `xs ++ ys` is running it over `xs` and, when that
succeeds, over `ys` from the buffer reached. -/
theorem combine_paths_loop_append (PM : Nat) :
    ∀ (xs ys : List CStr) (path : CStr),
      combine_paths_loop PM path (xs ++ ys)
        = (match combine_paths_loop PM path xs with
           | (true, p) => combine_paths_loop PM p ys
           | (false, p) => (false, p)) := by
  intro xs
  induction xs with
  | nil =>
    intro ys path
    simp [combine_paths_loop]
  | cons x xs ih =>
    intro ys path
    rw [List.cons_append, combine_paths_loop.eq_def PM path (x :: (xs ++ ys)),
      combine_paths_loop.eq_def PM path (x :: xs)]
    simp only []
    split_ifs <;> first | rfl | (split <;> exact ih _ _)

/-- A failed `combine_paths` loop leaves the buffer empty. -/
theorem combine_paths_loop_false (PM : Nat) :
    ∀ (xs : List CStr) (path : CStr),
      (combine_paths_loop PM path xs).1 = false → (combine_paths_loop PM path xs).2 = [] := by
  intro xs
  induction xs with
  | nil =>
    intro path h
    simp [combine_paths_loop] at h
  | cons x xs ih =>
    intro path
    rw [combine_paths_loop.eq_def PM path (x :: xs)]
    simp only []
    split_ifs <;> first | (intro _; rfl) | (split <;> exact ih _)


/-! ## `combine_paths`: the documented examples, in general -/

/-- C2: for non-empty, separator-free segments `s1..sn`, `combine_paths`
returns success with `/s1/s2/.../sn` when that path fits the path bound (its
length is below `PATH_MAX`, so that it fits a `PATH_MAX` buffer with its
terminator), and so it does when any of the non-final segments carries a
trailing separator; with an empty final segment appended it returns that path
followed by one separator, when that longer path fits the bound too; and
`/s1/.../sn` itself does not end in a separator. -/
theorem combine_paths_normalises (PM : Nat) (segs : List CStr) (hne : segs ≠ [])
    (hsegs : ∀ s ∈ segs, s ≠ [] ∧ '/' ∉ s) :
    ((joined segs).length < PM →
        combine_paths PM segs = (true, joined segs) ∧
        ∀ marks : List Bool, marks.length < segs.length →
          combine_paths PM (withTrailing marks segs) = (true, joined segs)) ∧
    ((joined segs).length + 1 < PM →
        combine_paths PM (segs ++ [[]]) = (true, joined segs ++ ['/'])) ∧
    (joined segs).getLast? ≠ some '/' := by
  have hmarks : (joined segs).length < PM → ∀ marks : List Bool, marks.length < segs.length →
      combine_paths PM (withTrailing marks segs) = (true, joined segs) := by
    intro hlen marks hm
    have := combine_paths_loop_marks PM segs marks ['/'] [] (Or.inl rfl) hne hm hsegs
      (by simpa using hlen)
    simpa [combine_paths] using this
  have hplain : (joined segs).length < PM → combine_paths PM segs = (true, joined segs) := by
    intro hlen
    have := hmarks hlen [] (List.length_pos.mpr hne)
    rwa [withTrailing_nil] at this
  have hlast : (joined segs).getLast? ≠ some '/' := by
    obtain ⟨init, s, rfl⟩ : ∃ init s, segs = init ++ [s] :=
      ⟨segs.dropLast, segs.getLast hne, (List.dropLast_append_getLast hne).symm⟩
    have hs := hsegs s (by simp)
    rw [joined_append, joined_cons, joined_nil]
    have := getLast?_append_sepfree (joined init ++ ['/']) s hs.1 hs.2
    simpa using this
  refine ⟨fun hlen => ⟨hplain hlen, hmarks hlen⟩, ?_, hlast⟩
  intro hlen
  have h1 := hplain (by omega)
  unfold combine_paths at h1 ⊢
  rw [combine_paths_loop_append, h1]
  have hjne : joined segs ≠ [] := by
    cases segs with
    | nil => exact absurd rfl hne
    | cons s rest => simp [joined_cons]
  show combine_paths_loop PM (joined segs) [[]] = _
  rw [combine_paths_loop_cons PM _ _ _ hjne (by omega), ensureSep_of_ne _ hlast]
  simp [stripLead, combine_paths_loop]

/-- The documented examples of `combine_paths`, with `PATH_MAX = 1024`. -/
theorem combine_paths_normalises_witness :
    combine_paths 1024 [['o', 'n', 'e'], ['t', 'w', 'o'], ['t', 'h', 'r', 'e', 'e']]
        = (true, "/one/two/three".toList) ∧
    combine_paths 1024 [['o', 'n', 'e', '/'], ['t', 'w', 'o', '/'], ['t', 'h', 'r', 'e', 'e']]
        = (true, "/one/two/three".toList) ∧
    combine_paths 1024 [['o', 'n', 'e'], ['t', 'w', 'o'], ['t', 'h', 'r', 'e', 'e'], []]
        = (true, "/one/two/three/".toList) := by
  have h := combine_paths_normalises 1024
    [['o', 'n', 'e'], ['t', 'w', 'o'], ['t', 'h', 'r', 'e', 'e']] (by simp) (by decide)
  have ha := h.1 (by decide)
  exact ⟨ha.1, ha.2 [true, true] (by decide), h.2.1 (by decide)⟩

/-! ## `combine_paths`: the separator invariant -/

theorem textsWithSep_nil : textsWithSep [] = [] := rfl

theorem textsWithSep_cons (s : CStr) (rest : List CStr) :
    textsWithSep (s :: rest) = segPiece s ++ textsWithSep rest := by
  simp [textsWithSep, List.flatMap, List.flatten]

theorem getLast?_ensureSep (p : CStr) : (ensureSep p).getLast? = some '/' := by
  unfold ensureSep
  split
  · assumption
  · simp

theorem head?_ensureSep (p : CStr) (hp : p ≠ []) : (ensureSep p).head? = p.head? := by
  unfold ensureSep
  split
  · rfl
  · cases p with
    | nil => exact absurd rfl hp
    | cons c t => rfl

theorem noDoubleSep_ensureSep (p : CStr) (hp : NoDoubleSep p) : NoDoubleSep (ensureSep p) := by
  unfold ensureSep
  split
  · exact hp
  · rename_i hl
    refine List.Chain'.append hp (List.chain'_singleton _) ?_
    intro x hx y _ hxy
    exact hl (by rw [Option.mem_def.mp hx, hxy.1])

theorem stripLead_head? (s : CStr) (hs : NoDoubleSep s) : (stripLead s).head? ≠ some '/' := by
  unfold stripLead
  split
  · rename_i t
    cases t with
    | nil => simp
    | cons c u =>
      have := (List.chain'_cons.mp hs).1
      intro hc
      simp at hc
      exact this ⟨rfl, hc⟩
  · rename_i hne
    cases s with
    | nil => simp
    | cons c u =>
      intro hc
      simp at hc
      exact hne u (by rw [hc])

theorem noDoubleSep_stripLead (s : CStr) (hs : NoDoubleSep s) : NoDoubleSep (stripLead s) := by
  unfold stripLead
  split
  · exact List.Chain'.tail hs
  · exact hs

theorem noDoubleSep_append (e s1 : CStr) (he : NoDoubleSep e) (hs : NoDoubleSep s1)
    (hh : s1.head? ≠ some '/') : NoDoubleSep (e ++ s1) := by
  refine List.Chain'.append he hs ?_
  intro x _ y hy hxy
  exact hh (by rw [Option.mem_def.mp hy, hxy.2])

/-- Appending a stripped segment to a buffer that ends in a separator adds
exactly the text of the segment and one separator, once a trailing separator
is ensured. -/
theorem ensureSep_append_stripLead (e s : CStr) (he : e.getLast? = some '/')
    (hs : NoDoubleSep s) : ensureSep (e ++ stripLead s) = e ++ segPiece s := by
  have hh := stripLead_head? s hs
  unfold segPiece segText
  generalize stripLead s = s1 at hh ⊢
  by_cases hnil : s1 = []
  · subst hnil
    simp [ensureSep, he]
  · have hE : (e ++ s1).getLast? = s1.getLast? := List.getLast?_append_of_ne_nil e hnil
    by_cases hl : s1.getLast? = some '/'
    · have hd : s1.dropLast ++ ['/'] = s1 := List.dropLast_append_getLast? '/' hl
      have hdne : s1.dropLast ≠ [] := by
        intro hd0
        rw [hd0] at hd
        apply hh
        rw [← hd]
        rfl
      simp only [ensureSep, hE, hl, if_true, List.isEmpty_eq_true, hdne, if_false, hd]
    · simp only [ensureSep, hE, hl, if_false, List.isEmpty_eq_true, hnil, List.append_assoc]

theorem combine_paths_loop_inv (PM : Nat) :
    ∀ (segs : List CStr) (path p : CStr),
      path ≠ [] → NoDoubleSep path → path.head? = some '/' →
      (∀ s ∈ segs, NoDoubleSep s) →
      combine_paths_loop PM path segs = (true, p) →
      NoDoubleSep p ∧ p.head? = some '/' ∧ ensureSep p = ensureSep path ++ textsWithSep segs := by
  intro segs
  induction segs with
  | nil =>
    intro path p _ hnd hhd _ hrun
    simp [combine_paths_loop] at hrun
    subst hrun
    exact ⟨hnd, hhd, by simp [textsWithSep_nil]⟩
  | cons s rest ih =>
    intro path p hne hnd hhd hsegs hrun
    have hs : NoDoubleSep s := hsegs s (by simp)
    by_cases hlen : path.length + 2 ≤ PM
    · rw [combine_paths_loop_cons PM path s rest hne hlen] at hrun
      have h1 : ensureSep path ++ stripLead s ≠ [] := by
        simp [ensureSep_ne_nil]
      have h2 : NoDoubleSep (ensureSep path ++ stripLead s) :=
        noDoubleSep_append _ _ (noDoubleSep_ensureSep path hnd) (noDoubleSep_stripLead s hs)
          (stripLead_head? s hs)
      have h3 : (ensureSep path ++ stripLead s).head? = some '/' := by
        rw [List.head?_append_of_ne_nil _ (ensureSep_ne_nil path), head?_ensureSep path hne, hhd]
      obtain ⟨r1, r2, r3⟩ := ih _ p h1 h2 h3 (fun t ht => hsegs t (by simp [ht])) hrun
      refine ⟨r1, r2, ?_⟩
      rw [r3, ensureSep_append_stripLead _ s (getLast?_ensureSep path) hs, textsWithSep_cons]
      simp
    · rw [combine_paths_loop_too_big PM path s rest hne (by omega)] at hrun
      simp at hrun

/-- C4: for segments that may carry a leading and a trailing separator but no
two consecutive separators, a successful `combine_paths` result begins with
one separator that no second separator follows, contains no two consecutive
separators anywhere, and, with a trailing separator ensured, is the leading
separator followed by the text of every segment that has one, each text
followed by exactly one separator. -/
theorem combine_paths_separator_invariant (PM : Nat) (segs : List CStr) (p : CStr)
    (hsegs : ∀ s ∈ segs, NoDoubleSep s)
    (hok : combine_paths PM segs = (true, p)) :
    p.head? = some '/' ∧ p.tail.head? ≠ some '/' ∧ NoDoubleSep p ∧
      ensureSep p = '/' :: textsWithSep segs := by
  obtain ⟨h1, h2, h3⟩ := combine_paths_loop_inv PM segs ['/'] p (by simp)
    (List.chain'_singleton _) rfl hsegs hok
  refine ⟨h2, ?_, h1, ?_⟩
  · cases p with
    | nil => simp
    | cons c t =>
      cases t with
      | nil => simp
      | cons d u =>
        simp at h2
        intro hd
        simp at hd
        exact (List.chain'_cons.mp h1).1 ⟨h2, hd⟩
  · rw [h3]
    simp [ensureSep]

/-- Segments with leading and trailing separators, an empty one among them. -/
theorem combine_paths_separator_invariant_witness :
    let segs : List CStr := [['/', 'a', '/'], ['/', 'b'], [], ['c', '/', 'd', '/']]
    let p : CStr := ['/', 'a', '/', 'b', '/', 'c', '/', 'd', '/']
    (∀ s ∈ segs, NoDoubleSep s) ∧ combine_paths 1024 segs = (true, p) ∧
      p.head? = some '/' ∧ p.tail.head? ≠ some '/' ∧ NoDoubleSep p ∧
      ensureSep p = '/' :: textsWithSep segs := by
  intro segs p
  have hs : ∀ s ∈ segs, NoDoubleSep s := by
    intro s hs
    simp only [segs, List.mem_cons, List.mem_singleton, List.not_mem_nil, or_false] at hs
    rcases hs with rfl | rfl | rfl | rfl <;> simp [NoDoubleSep]
  have hok : combine_paths 1024 segs = (true, p) := by decide
  exact ⟨hs, hok, combine_paths_separator_invariant 1024 segs p hs hok⟩

/-! ## `strrchr`, `strstr` -/

theorem strrchr_eq_none_iff (s : CStr) (c : Char) : strrchr s c = none ↔ c ∉ s := by
  induction s with
  | nil => simp [strrchr]
  | cons x xs ih =>
    rw [strrchr]
    cases h : strrchr xs c with
    | some r =>
      have : ¬ (c ∉ xs) := fun hn => by simp [ih.mpr hn] at h
      simp only [List.mem_cons, not_or]
      constructor
      · intro h0; simp at h0
      · intro h0; exact absurd h0.2 this
    | none =>
      have hn := ih.mp h
      by_cases hx : x = c
      · simp [hx]
      · simp [hx, hn, Ne.symm hx]

theorem strrchr_eq_some_iff (s : CStr) (c : Char) (r : CStr) :
    strrchr s c = some r ↔ ∃ pre t, s = pre ++ c :: t ∧ c ∉ t ∧ r = c :: t := by
  induction s generalizing r with
  | nil => simp [strrchr]
  | cons x xs ih =>
    rw [strrchr]
    cases h : strrchr xs c with
    | some r1 =>
      obtain ⟨pre, t, hxs, hct, hr1⟩ := (ih r1).mp h
      constructor
      · intro h0
        simp only [Option.some.injEq] at h0
        subst h0
        exact ⟨x :: pre, t, by simp [hxs], hct, hr1⟩
      · rintro ⟨pre2, t2, hs2, hct2, hr2⟩
        simp only [Option.some.injEq]
        cases pre2 with
        | nil =>
          simp only [List.nil_append, List.cons.injEq] at hs2
          exfalso
          apply hct2
          rw [← hs2.2, hxs]
          simp
        | cons y ys =>
          simp only [List.cons_append, List.cons.injEq] at hs2
          have := (ih r).mpr ⟨ys, t2, hs2.2, hct2, hr2⟩
          rw [h] at this
          exact Option.some.inj this
    | none =>
      have hn := (strrchr_eq_none_iff xs c).mp h
      by_cases hx : x = c
      · simp only [hx, if_true, Option.some.injEq]
        constructor
        · intro h0
          exact ⟨[], xs, by simp, hn, h0.symm⟩
        · rintro ⟨pre2, t2, hs2, hct2, hr2⟩
          cases pre2 with
          | nil =>
            simp only [List.nil_append, List.cons.injEq] at hs2
            rw [hr2, hs2.2]
          | cons y ys =>
            simp only [List.cons_append, List.cons.injEq] at hs2
            exfalso
            apply hn
            rw [hs2.2]
            simp
      · simp only [hx, if_false]
        constructor
        · intro h0; simp at h0
        · rintro ⟨pre2, t2, hs2, hct2, hr2⟩
          cases pre2 with
          | nil =>
            simp only [List.nil_append, List.cons.injEq] at hs2
            exact absurd hs2.1 hx
          | cons y ys =>
            simp only [List.cons_append, List.cons.injEq] at hs2
            exfalso
            apply hn
            rw [hs2.2]
            simp

theorem strstr_some (hay needle ep : CStr) (h : strstr hay needle = some ep) :
    ∃ i, i ≤ hay.length ∧ ep = hay.drop i ∧ needle <+: ep := by
  induction hay with
  | nil =>
    simp only [strstr] at h
    split at h
    · rename_i hn
      simp only [Option.some.injEq] at h
      subst h
      exact ⟨0, by simp, by simp, by simp [List.isEmpty_iff.mp hn]⟩
    · simp at h
  | cons x xs ih =>
    rw [strstr] at h
    split at h
    · rename_i hp
      simp only [Option.some.injEq] at h
      subst h
      exact ⟨0, by simp, by simp, List.isPrefixOf_iff_prefix.mp hp⟩
    · obtain ⟨i, hi, he, hpre⟩ := ih h
      exact ⟨i + 1, by simp [hi], by simp [he], hpre⟩

/-! ## The no-compression policy -/

theorem no_compression_file_ext_eq (filename : CStr) :
    no_compression_file_ext filename
      = (match strrchr filename '.' with
         | some ext => rawTableTest ext
         | none => false) := rfl

set_option maxRecDepth 100000 in
/-- Every piece of the table that starts with a dot, has no further dot and
passes the table test is one of the listed extensions. -/
theorem rawTable_pieces :
    ∀ i : Fin 30, ∀ k : Fin 30,
      ((ZIP_RAW_EXTENTIONS.drop i).take k).head? = some '.' →
      '.' ∉ ((ZIP_RAW_EXTENTIONS.drop i).take k).tail →
      rawTableTest ((ZIP_RAW_EXTENTIONS.drop i).take k) = true →
      ((ZIP_RAW_EXTENTIONS.drop i).take k) ∈ rawExtensions := by
  decide

theorem rawTableTest_of_mem (ext : CStr) (h : ext ∈ rawExtensions) : rawTableTest ext = true := by
  simp only [rawExtensions, List.mem_cons, List.mem_singleton, List.not_mem_nil, or_false] at h
  rcases h with rfl | rfl | rfl | rfl | rfl | rfl <;> decide

theorem mem_of_rawTableTest (e : CStr) (hdot : '.' ∉ e) (h : rawTableTest ('.' :: e) = true) :
    ('.' :: e) ∈ rawExtensions := by
  unfold rawTableTest at h
  split at h
  · rename_i ep hstr
    obtain ⟨i, hi, hep, hpre⟩ := strstr_some _ _ _ hstr
    have hget : ep.get? ('.' :: e).length = some '|' := by simpa using h
    have hk : ('.' :: e).length < ep.length := by
      by_contra hc
      rw [List.get?_eq_none.mpr (by omega)] at hget
      simp at hget
    have hlen : ep.length ≤ 29 := by
      rw [hep, List.length_drop]
      have : ZIP_RAW_EXTENTIONS.length = 29 := by decide
      omega
    have htake : '.' :: e = (ZIP_RAW_EXTENTIONS.drop i).take ('.' :: e).length := by
      rw [← hep]
      exact List.prefix_iff_eq_take.mp hpre
    have hi30 : i < 30 := by
      have : ZIP_RAW_EXTENTIONS.length = 29 := by decide
      omega
    have hk30 : ('.' :: e).length < 30 := by omega
    have key := rawTable_pieces ⟨i, hi30⟩ ⟨('.' :: e).length, hk30⟩
    simp only [← htake] at key
    exact key rfl hdot (by
      unfold rawTableTest
      rw [hstr]
      exact h)
  · simp at h

/-- The test of `no_compression_file_ext` succeeds exactly on the names whose
text from the last dot on is one of the listed extensions. -/
theorem no_compression_file_ext_iff (name : CStr) :
    no_compression_file_ext name = true ↔ HasRawExtension name := by
  rw [no_compression_file_ext_eq]
  constructor
  · intro h
    split at h
    · rename_i ext hext
      obtain ⟨pre, t, hname, hdot, rfl⟩ := (strrchr_eq_some_iff _ _ _).mp hext
      exact ⟨pre, t, hname, hdot, mem_of_rawTableTest t hdot h⟩
    · simp at h
  · rintro ⟨pre, e, hname, hdot, hmem⟩
    have : strrchr name '.' = some ('.' :: e) :=
      (strrchr_eq_some_iff _ _ _).mpr ⟨pre, e, hname, hdot, rfl⟩
    rw [this]
    exact rawTableTest_of_mem _ hmem

theorem shifted_mode (m : Nat) : m * 2 ^ 16 % 2 ^ 64 / 2 ^ 16 = m % 2 ^ 48 := by
  norm_num
  omega

theorem land_S_IFMT_mod (m : Nat) : (m % 2 ^ 48) &&& S_IFMT = m &&& S_IFMT := by
  have h1 : m % 2 ^ 48 = m &&& (2 ^ 48 - 1) := (Nat.and_pow_two_sub_one_eq_mod m 48).symm
  rw [h1, Nat.land_assoc]
  rfl

theorem S_ISLNK_shifted (m : Nat) : S_ISLNK (m * 2 ^ 16 % 2 ^ 64 / 2 ^ 16) = S_ISLNK m := by
  unfold S_ISLNK
  rw [shifted_mode, land_S_IFMT_mod]

theorem S_ISLNK_of_S_ISREG (m : Nat) (h : S_ISREG m = true) : S_ISLNK m = false := by
  unfold S_ISREG at h
  unfold S_ISLNK
  have h1 : m &&& S_IFMT = S_IFREG := by simpa using h
  rw [h1]
  decide

/-- C5: for a regular file, `compress_file` opens the entry with level `0`,
whatever level was requested, exactly when the text from the last dot of the
entry name on is, in full and case-sensitively, one of `.png .zip .gz .mpg
.mov .rar`; for every other name it opens the entry at the requested level.
The method argument is `Z_DEFLATED` in both cases. -/
theorem compress_file_level (codec : Codec) (zf : List ZipCall) (name : CStr) (src : Source)
    (level : Int) (hreg : S_ISREG src.st_mode = true) :
    (HasRawExtension name → ∃ rest, (compress_file codec zf name src level).2
        = zf ++ ZipCall.zipOpenNewFileInZip2 name src.tm_t (src.st_mode * 2 ^ 16 % 2 ^ 64)
            Z_DEFLATED 0 :: rest) ∧
    (¬ HasRawExtension name → ∃ rest, (compress_file codec zf name src level).2
        = zf ++ ZipCall.zipOpenNewFileInZip2 name src.tm_t (src.st_mode * 2 ^ 16 % 2 ^ 64)
            Z_DEFLATED level :: rest) := by
  have hlnk : S_ISLNK (src.st_mode * 2 ^ 16 % 2 ^ 64 / 2 ^ 16) = false := by
    rw [S_ISLNK_shifted]
    exact S_ISLNK_of_S_ISREG _ hreg
  have hpre : ∀ (zf1 : List ZipCall) (rs : List (List Char × Bool)),
      ∃ rest, (compress_file_loop codec rs zf1).2 = zf1 ++ rest := by
    intro zf1 rs
    induction rs generalizing zf1 with
    | nil => exact ⟨[], by simp [compress_file_loop]⟩
    | cons r rs ih =>
      obtain ⟨chunk, eof⟩ := r
      rw [compress_file_loop]
      simp only []
      split_ifs
      · exact ⟨[], by simp⟩
      · exact ⟨[_], rfl⟩
      · obtain ⟨rest, hrest⟩ := ih (zf1 ++ [ZipCall.zipWriteInFileInZip chunk chunk.length])
        exact ⟨ZipCall.zipWriteInFileInZip chunk chunk.length :: rest, by rw [hrest]; simp⟩
      · exact ⟨[], by simp⟩
  have key : ∀ lvl : Int, (if no_compression_file_ext name then (0 : Int) else level) = lvl →
      ∃ rest, (compress_file codec zf name src level).2
        = zf ++ ZipCall.zipOpenNewFileInZip2 name src.tm_t (src.st_mode * 2 ^ 16 % 2 ^ 64)
            Z_DEFLATED lvl :: rest := by
    intro lvl hl
    unfold compress_file
    simp only [hlnk, hl, Bool.false_eq_true, if_false]
    split_ifs
    · exact ⟨[], by simp⟩
    · exact ⟨[ZipCall.zipCloseFileInZip], by simp⟩
    · obtain ⟨rest, hrest⟩ := hpre (zf ++ [ZipCall.zipOpenNewFileInZip2 name src.tm_t
        (src.st_mode * 2 ^ 16 % 2 ^ 64) Z_DEFLATED lvl]) src.reads
      exact ⟨rest ++ [ZipCall.zipCloseFileInZip], by rw [hrest]; simp⟩
  constructor
  · intro h
    exact key 0 (by simp [(no_compression_file_ext_iff name).mpr h])
  · intro h
    have : no_compression_file_ext name = false := by
      cases hc : no_compression_file_ext name
      · rfl
      · exact absurd ((no_compression_file_ext_iff name).mp hc) h
    exact key level (by simp [this])

/-- The policy on three names, level 9 requested: `photo.png` is opened at
level 0, `notes.txt` and `photo.PNG` at level 9. -/
theorem compress_file_level_witness :
    let src : Source := ⟨0o100644, 0, -1, [], true, [(['h', 'i'], true)]⟩
    S_ISREG src.st_mode = true ∧
    (∃ rest, (compress_file (fun _ => true) [] "photo.png".toList src 9).2
        = [] ++ ZipCall.zipOpenNewFileInZip2 "photo.png".toList 0 (0o100644 * 2 ^ 16 % 2 ^ 64)
            Z_DEFLATED 0 :: rest) ∧
    (∃ rest, (compress_file (fun _ => true) [] "notes.txt".toList src 9).2
        = [] ++ ZipCall.zipOpenNewFileInZip2 "notes.txt".toList 0 (0o100644 * 2 ^ 16 % 2 ^ 64)
            Z_DEFLATED 9 :: rest) ∧
    (∃ rest, (compress_file (fun _ => true) [] "photo.PNG".toList src 9).2
        = [] ++ ZipCall.zipOpenNewFileInZip2 "photo.PNG".toList 0 (0o100644 * 2 ^ 16 % 2 ^ 64)
            Z_DEFLATED 9 :: rest) := by
  intro src
  have hreg : S_ISREG src.st_mode = true := by decide
  refine ⟨hreg, ?_, ?_, ?_⟩
  · exact (compress_file_level (fun _ => true) [] "photo.png".toList src 9 hreg).1
      ⟨"photo".toList, "png".toList, rfl, by decide, by decide⟩
  · exact (compress_file_level (fun _ => true) [] "notes.txt".toList src 9 hreg).2
      (fun h => absurd ((no_compression_file_ext_iff _).mpr h) (by decide))
  · exact (compress_file_level (fun _ => true) [] "photo.PNG".toList src 9 hreg).2
      (fun h => absurd ((no_compression_file_ext_iff _).mpr h) (by decide))

/-! ## `compress_file` on a symlink whose target cannot be read -/

/-- C9: when `readlink` returns `-1` for a symlink, the value stored in the
unsigned `size_read` is `2^64 - 1`, the test `size_read <= 0` does not fire,
and `compress_file` opens an entry, passes the stale buffer with that length
to `zipWriteInFileInZip` and reports success when the codec accepts the calls;
only a `readlink` result of `0` is reported as a failure without an entry. -/
theorem compress_file_readlink_error :
    compress_file (fun _ => true) [] "link".toList ⟨0o120755, 0, -1, [], false, []⟩ 6
        = (true, [ZipCall.zipOpenNewFileInZip2 "link".toList 0 (0o120755 * 2 ^ 16) 0 0,
            ZipCall.zipWriteInFileInZip [] (2 ^ 64 - 1), ZipCall.zipCloseFileInZip]) ∧
    compress_file (fun _ => true) [] "link".toList ⟨0o120755, 0, 0, [], false, []⟩ 6
        = (false, [ZipCall.zipCloseFileInZip]) := by
  constructor <;> decide

/-! ## `get_last_path_component` -/

/-- C10: for a source without any separator `get_last_path_component` writes
nothing: the buffer `component`, which `compress_path` passes uninitialised,
keeps whatever it held; `/a/b` and `/a/b/` both give `b`. -/
theorem get_last_path_component_no_separator :
    (∀ component : CStr, get_last_path_component "foo".toList component = component) ∧
    (∀ component : CStr, get_last_path_component "foo/".toList component = component) ∧
    (∀ component : CStr, get_last_path_component "/a/b".toList component = "b".toList) ∧
    (∀ component : CStr, get_last_path_component "/a/b/".toList component = "b".toList) := by
  refine ⟨fun _ => rfl, fun _ => rfl, fun _ => rfl, fun _ => rfl⟩

/-! ## Sidecar names -/

theorem compress_directory_loop_nil (PM : Nat) (HX : Bool) (codec : Codec)
    (rel full : CStr) (level : Int) (zf : List ZipCall) :
    compress_directory_loop PM HX codec zf rel full level [] = (true, zf) := rfl

theorem compress_directory_dir (PM : Nat) (HX : Bool) (codec : Codec)
    (rel full : CStr) (level : Int) (zf : List ZipCall) (ok : Bool) (ents : List (CStr × Node)) :
    compress_directory PM HX codec zf rel full level (.dir ok ents)
      = if !ok then (false, zf)
        else compress_directory_loop PM HX codec zf rel full level ents := rfl

theorem compress_directory_file (PM : Nat) (HX : Bool) (codec : Codec)
    (rel full : CStr) (level : Int) (zf : List ZipCall) (t : DType) (src : Source)
    (packed : Option Source) :
    compress_directory PM HX codec zf rel full level (.file t src packed) = (false, zf) := rfl

theorem compress_directory_loop_cons (PM : Nat) (HX : Bool) (codec : Codec)
    (rel full : CStr) (level : Int) (zf : List ZipCall) (d_name : CStr) (node : Node)
    (rest : List (CStr × Node)) :
    compress_directory_loop PM HX codec zf rel full level ((d_name, node) :: rest)
      = if is_dot_or_dotdot d_name then
          compress_directory_loop PM HX codec zf rel full level rest
        else if !(combine_paths PM [rel, d_name]).1 then (false, zf)
        else if !(combine_paths PM [full, d_name]).1 then (false, zf)
        else
          match node with
          | .dir opendir_ok ents =>
            if !(compress_directory PM HX codec zf ((combine_paths PM [rel, d_name]).2 ++ ['/'])
                ((combine_paths PM [full, d_name]).2 ++ ['/']) level (.dir opendir_ok ents)).1 then
              (false, (compress_directory PM HX codec zf
                ((combine_paths PM [rel, d_name]).2 ++ ['/'])
                ((combine_paths PM [full, d_name]).2 ++ ['/']) level (.dir opendir_ok ents)).2)
            else compress_directory_loop PM HX codec
              (compress_directory PM HX codec zf ((combine_paths PM [rel, d_name]).2 ++ ['/'])
                ((combine_paths PM [full, d_name]).2 ++ ['/']) level (.dir opendir_ok ents)).2
              rel full level rest
          | .file DType.DT_DIR _ _ => (false, zf)
          | .file DType.DT_UNKNOWN _ _ =>
            compress_directory_loop PM HX codec zf rel full level rest
          | .file _ src packed =>
            if !(compress_file codec zf (combine_paths PM [rel, d_name]).2 src level).1 then
              (false, (compress_file codec zf (combine_paths PM [rel, d_name]).2 src level).2)
            else if HX then
              if !(compress_xattrs codec
                  (compress_file codec zf (combine_paths PM [rel, d_name]).2 src level).2
                  (combine_paths PM [rel, d_name]).2 packed level).1 then
                (false, (compress_xattrs codec
                  (compress_file codec zf (combine_paths PM [rel, d_name]).2 src level).2
                  (combine_paths PM [rel, d_name]).2 packed level).2)
              else compress_directory_loop PM HX codec
                (compress_xattrs codec
                  (compress_file codec zf (combine_paths PM [rel, d_name]).2 src level).2
                  (combine_paths PM [rel, d_name]).2 packed level).2 rel full level rest
            else compress_directory_loop PM HX codec
              (compress_file codec zf (combine_paths PM [rel, d_name]).2 src level).2
              rel full level rest := by
  cases node with
  | dir ok ents => rfl
  | file t src packed => cases t <;> rfl

/-- The loop handles its first entry as it handles a directory holding that
entry alone, and goes on to the rest only when that succeeds. -/
theorem compress_directory_loop_head (PM : Nat) (HX : Bool) (codec : Codec)
    (rel full : CStr) (level : Int) (zf : List ZipCall) (e : CStr × Node)
    (rest : List (CStr × Node)) :
    compress_directory_loop PM HX codec zf rel full level (e :: rest)
      = if (compress_directory_loop PM HX codec zf rel full level [e]).1 then
          compress_directory_loop PM HX codec
            (compress_directory_loop PM HX codec zf rel full level [e]).2 rel full level rest
        else compress_directory_loop PM HX codec zf rel full level [e] := by
  obtain ⟨d_name, node⟩ := e
  rw [compress_directory_loop_cons PM HX codec rel full level zf d_name node rest,
    compress_directory_loop_cons PM HX codec rel full level zf d_name node []]
  simp only [compress_directory_loop_nil]
  by_cases hdot : is_dot_or_dotdot d_name = true
  · simp [hdot]
  by_cases hrel : (combine_paths PM [rel, d_name]).1 = true
  swap
  · simp [hdot, hrel]
  by_cases hfull : (combine_paths PM [full, d_name]).1 = true
  swap
  · simp [hdot, hrel, hfull]
  simp only [hdot, hrel, hfull, Bool.not_true, Bool.false_eq_true, if_false]
  cases node with
  | dir ok ents =>
    simp only []
    by_cases hr : (compress_directory PM HX codec zf ((combine_paths PM [rel, d_name]).2 ++ ['/'])
      ((combine_paths PM [full, d_name]).2 ++ ['/']) level (.dir ok ents)).1 = true
    · simp [hr]
    · simp [hr]
  | file t src packed =>
    cases t
    · simp
    · simp only []
      by_cases hr : (compress_file codec zf (combine_paths PM [rel, d_name]).2 src level).1 = true
      · cases HX
        · simp [hr]
        · by_cases hx : (compress_xattrs codec
            (compress_file codec zf (combine_paths PM [rel, d_name]).2 src level).2
            (combine_paths PM [rel, d_name]).2 packed level).1 = true
          · simp [hr, hx]
          · simp [hr, hx]
      · simp [hr]
    · simp only []
      by_cases hr : (compress_file codec zf (combine_paths PM [rel, d_name]).2 src level).1 = true
      · cases HX
        · simp [hr]
        · by_cases hx : (compress_xattrs codec
            (compress_file codec zf (combine_paths PM [rel, d_name]).2 src level).2
            (combine_paths PM [rel, d_name]).2 packed level).1 = true
          · simp [hr, hx]
          · simp [hr, hx]
      · simp [hr]
    · simp

/-- The `readdir` loop over `xs ++ ys` is the loop over `xs` followed, when
that succeeds, by the loop over `ys` on the archive reached; when the loop
over `xs` fails, `ys` is not looked at. -/
theorem compress_directory_loop_append (PM : Nat) (HX : Bool) (codec : Codec)
    (rel full : CStr) (level : Int) :
    ∀ (xs ys : List (CStr × Node)) (zf : List ZipCall),
      compress_directory_loop PM HX codec zf rel full level (xs ++ ys)
        = if (compress_directory_loop PM HX codec zf rel full level xs).1 then
            compress_directory_loop PM HX codec
              (compress_directory_loop PM HX codec zf rel full level xs).2 rel full level ys
          else compress_directory_loop PM HX codec zf rel full level xs := by
  intro xs
  induction xs with
  | nil =>
    intro ys zf
    simp [compress_directory_loop_nil]
  | cons x xs ih =>
    intro ys zf
    rw [List.cons_append, compress_directory_loop_head PM HX codec rel full level zf x (xs ++ ys),
      compress_directory_loop_head PM HX codec rel full level zf x xs]
    by_cases h1 : (compress_directory_loop PM HX codec zf rel full level [x]).1 = true
    · simp only [h1, if_true]
      exact ih _ _
    · simp [h1]

theorem compress_directory_loop_true_iff (PM : Nat) (HX : Bool) (codec : Codec)
    (rel full : CStr) (level : Int) :
    ∀ (ents : List (CStr × Node)) (zf : List ZipCall),
      (compress_directory_loop PM HX codec zf rel full level ents).1 = true ↔
        ∀ pre e post, ents = pre ++ e :: post →
          (compress_directory_loop PM HX codec
            (compress_directory_loop PM HX codec zf rel full level pre).2
            rel full level [e]).1 = true := by
  intro ents
  induction ents with
  | nil =>
    intro zf
    simp [compress_directory_loop_nil]
  | cons x xs ih =>
    intro zf
    rw [compress_directory_loop_head]
    constructor
    · intro h pre e post hsplit
      by_cases h1 : (compress_directory_loop PM HX codec zf rel full level [x]).1 = true
      · simp only [h1, if_true] at h
        cases pre with
        | nil =>
          simp only [List.nil_append, List.cons.injEq] at hsplit
          rw [compress_directory_loop_nil, ← hsplit.1]
          exact h1
        | cons y ys =>
          simp only [List.cons_append, List.cons.injEq] at hsplit
          have := (ih _).mp h ys e post hsplit.2
          rw [compress_directory_loop_head PM HX codec rel full level zf y ys, ← hsplit.1]
          simpa [h1] using this
      · simp [h1] at h
    · intro h
      have h1 : (compress_directory_loop PM HX codec zf rel full level [x]).1 = true := by
        have := h [] x xs rfl
        rwa [compress_directory_loop_nil] at this
      simp only [h1, if_true]
      apply (ih _).mpr
      intro pre e post hsplit
      have := h (x :: pre) e post (by rw [hsplit]; rfl)
      rw [compress_directory_loop_head PM HX codec rel full level zf x pre] at this
      simpa [h1] using this

/-- C7: the walk of `compress_directory` is fail-fast.  For the `readdir` loop
of a directory (any archive state, any paths): when the loop fails on the
entries read so far, the entries after them change neither the result nor the
calls made; the loop succeeds exactly when every child, handled on the archive
the earlier children left, succeeds; a regular-file or symlink child succeeds
only if both of its paths could be built and `compress_file` (and, under
`HANDLE_XATTRS`, `compress_xattrs`) succeeded on it; a subdirectory child
succeeds only if its paths could be built and `compress_directory` succeeded
on it, which needs `opendir` to succeed and its own loop to succeed; and
`compress_path` succeeds only if `compress_directory` did, for a directory
source, or `compress_file` (and `compress_xattrs`) did, for another source. -/
theorem compress_failure_propagation (PM : Nat) (HX : Bool) (codec : Codec) (level : Int) :
    (∀ (rel full : CStr) (zf : List ZipCall) (pre post : List (CStr × Node)),
      (compress_directory_loop PM HX codec zf rel full level pre).1 = false →
      compress_directory_loop PM HX codec zf rel full level (pre ++ post)
        = compress_directory_loop PM HX codec zf rel full level pre) ∧
    (∀ (rel full : CStr) (zf : List ZipCall) (ents : List (CStr × Node)),
      (compress_directory_loop PM HX codec zf rel full level ents).1 = true ↔
        ∀ pre e post, ents = pre ++ e :: post →
          (compress_directory_loop PM HX codec
            (compress_directory_loop PM HX codec zf rel full level pre).2
            rel full level [e]).1 = true) ∧
    (∀ (rel full : CStr) (zf : List ZipCall) (d_name : CStr) (t : DType) (src : Source)
        (packed : Option Source),
      is_dot_or_dotdot d_name = false → t = DType.DT_REG ∨ t = DType.DT_LNK →
      (compress_directory_loop PM HX codec zf rel full level
        [(d_name, Node.file t src packed)]).1 = true →
      (combine_paths PM [rel, d_name]).1 = true ∧ (combine_paths PM [full, d_name]).1 = true ∧
      (compress_file codec zf (combine_paths PM [rel, d_name]).2 src level).1 = true ∧
      (HX = true → (compress_xattrs codec
        (compress_file codec zf (combine_paths PM [rel, d_name]).2 src level).2
        (combine_paths PM [rel, d_name]).2 packed level).1 = true)) ∧
    (∀ (rel full : CStr) (zf : List ZipCall) (d_name : CStr) (ok : Bool)
        (ents : List (CStr × Node)),
      is_dot_or_dotdot d_name = false →
      (compress_directory_loop PM HX codec zf rel full level
        [(d_name, Node.dir ok ents)]).1 = true →
      (combine_paths PM [rel, d_name]).1 = true ∧ (combine_paths PM [full, d_name]).1 = true ∧
      (compress_directory PM HX codec zf ((combine_paths PM [rel, d_name]).2 ++ ['/'])
        ((combine_paths PM [full, d_name]).2 ++ ['/']) level (Node.dir ok ents)).1 = true) ∧
    (∀ (rel full : CStr) (zf : List ZipCall) (ok : Bool) (ents : List (CStr × Node)),
      (compress_directory PM HX codec zf rel full level (Node.dir ok ents)).1 = true ↔
        ok = true ∧ (compress_directory_loop PM HX codec zf rel full level ents).1 = true) ∧
    (∀ (w : PathWorld) (source : CStr), S_ISDIR w.st_mode = true →
      (compress_path PM HX codec w source level).1 = true →
      (compress_directory PM HX codec []
        (get_last_path_component source w.relative_path ++ ['/']) source level w.tree).1
        = true) ∧
    (∀ (w : PathWorld) (source : CStr), S_ISDIR w.st_mode = false →
      (compress_path PM HX codec w source level).1 = true →
      (compress_file codec [] (get_last_path_component source w.relative_path) w.src level).1
        = true ∧
      (HX = true → (compress_xattrs codec
        (compress_file codec [] (get_last_path_component source w.relative_path) w.src level).2
        (get_last_path_component source w.relative_path) w.packed level).1 = true)) := by
  refine ⟨?_, ?_, ?_, ?_, ?_, ?_, ?_⟩
  · intro rel full zf pre post h
    rw [compress_directory_loop_append]
    simp [h]
  · intro rel full zf ents
    exact compress_directory_loop_true_iff PM HX codec rel full level ents zf
  · intro rel full zf d_name t src packed hdot ht h
    rw [compress_directory_loop_cons] at h
    simp only [hdot, Bool.false_eq_true, if_false, compress_directory_loop_nil] at h
    by_cases hrel : (combine_paths PM [rel, d_name]).1 = true
    swap
    · simp [hrel] at h
    by_cases hfull : (combine_paths PM [full, d_name]).1 = true
    swap
    · simp [hrel, hfull] at h
    simp only [hrel, hfull, Bool.not_true, Bool.false_eq_true, if_false] at h
    refine ⟨hrel, hfull, ?_⟩
    by_cases hr : (compress_file codec zf (combine_paths PM [rel, d_name]).2 src level).1 = true
    swap
    · rcases ht with rfl | rfl <;> simp [hr] at h
    refine ⟨hr, ?_⟩
    intro hx
    subst hx
    by_contra hc
    rcases ht with rfl | rfl <;> simp [hr, hc] at h
  · intro rel full zf d_name ok ents hdot h
    rw [compress_directory_loop_cons] at h
    simp only [hdot, Bool.false_eq_true, if_false, compress_directory_loop_nil] at h
    by_cases hrel : (combine_paths PM [rel, d_name]).1 = true
    swap
    · simp [hrel] at h
    by_cases hfull : (combine_paths PM [full, d_name]).1 = true
    swap
    · simp [hrel, hfull] at h
    simp only [hrel, hfull, Bool.not_true, Bool.false_eq_true, if_false] at h
    refine ⟨hrel, hfull, ?_⟩
    by_contra hc
    simp [hc] at h
  · intro rel full zf ok ents
    rw [compress_directory_dir]
    cases ok <;> simp
  · intro w source hdir h
    unfold compress_path at h
    by_cases h1 : w.lstat_ok = true
    swap
    · simp [h1] at h
    by_cases h2 : w.zipOpen_ok = true
    swap
    · simp [h1, h2] at h
    by_cases h3 : w.malloc_ok = true
    swap
    · simp [h1, h2, h3] at h
    simpa [h1, h2, h3, hdir] using h
  · intro w source hdir h
    unfold compress_path at h
    by_cases h1 : w.lstat_ok = true
    swap
    · simp [h1] at h
    by_cases h2 : w.zipOpen_ok = true
    swap
    · simp [h1, h2] at h
    by_cases h3 : w.malloc_ok = true
    swap
    · simp [h1, h2, h3] at h
    simp only [h1, h2, h3, hdir, Bool.not_true, Bool.false_eq_true, if_false] at h
    by_cases h4 : (S_ISREG w.st_mode || S_ISLNK w.st_mode) = true
    swap
    · simp [h4] at h
    simp only [h4, if_true] at h
    by_cases h5 : (compress_file codec [] (get_last_path_component source w.relative_path)
        w.src level).1 = true
    swap
    · cases HX <;> simp [h5] at h
    refine ⟨h5, ?_⟩
    intro hx
    subst hx
    simpa [h5] using h

/-! ## `decompress_path`: success and failure -/

theorem decompress_loop_eq {σ : Type} (sys : System σ) (HX : Bool) (destination : CStr)
    (last : UnzEnd) (e : UnzEntry) (rest : List UnzEntry) (s : σ) :
    decompress_loop sys HX destination last e rest s
      = if !(unzip_current_file sys HX e destination s).2 then
          ((unzip_current_file sys HX e destination s).1, false)
        else
          match rest with
          | [] => ((unzip_current_file sys HX e destination s).1,
              decide (last = UnzEnd.UNZ_END_OF_LIST_OF_FILE))
          | e1 :: rest1 => decompress_loop sys HX destination last e1 rest1
              (unzip_current_file sys HX e destination s).1 := by
  cases rest <;> rfl

theorem decompress_loop_true_iff {σ : Type} (sys : System σ) (HX : Bool) (destination : CStr)
    (last : UnzEnd) :
    ∀ (rest : List UnzEntry) (e : UnzEntry) (s : σ),
      (decompress_loop sys HX destination last e rest s).2 = true ↔
        (∀ pre x post, e :: rest = pre ++ x :: post →
          (unzip_current_file sys HX x destination
            (extract_all sys HX destination pre s)).2 = true) ∧
        last = UnzEnd.UNZ_END_OF_LIST_OF_FILE := by
  intro rest
  induction rest with
  | nil =>
    intro e s
    rw [decompress_loop_eq]
    by_cases h : (unzip_current_file sys HX e destination s).2 = true
    · simp only [h, Bool.not_true, Bool.false_eq_true, if_false, decide_eq_true_eq]
      constructor
      · intro hl
        refine ⟨?_, hl⟩
        intro pre x post hsplit
        cases pre with
        | nil =>
          simp only [List.nil_append, List.cons.injEq] at hsplit
          rw [← hsplit.1]
          exact h
        | cons y ys =>
          simp only [List.cons_append, List.cons.injEq] at hsplit
          exact absurd hsplit.2 (by simp)
      · exact fun hh => hh.2
    · simp only [h, Bool.not_false, if_true, Bool.false_eq_true, false_iff, not_and]
      intro hall
      exact absurd (hall [] e [] rfl) h
  | cons e1 rest1 ih =>
    intro e s
    rw [decompress_loop_eq]
    by_cases h : (unzip_current_file sys HX e destination s).2 = true
    · simp only [h, Bool.not_true, Bool.false_eq_true, if_false]
      rw [ih]
      constructor
      · rintro ⟨hall, hl⟩
        refine ⟨?_, hl⟩
        intro pre x post hsplit
        cases pre with
        | nil =>
          simp only [List.nil_append, List.cons.injEq] at hsplit
          rw [← hsplit.1]
          exact h
        | cons y ys =>
          simp only [List.cons_append, List.cons.injEq] at hsplit
          rw [← hsplit.1]
          exact hall ys x post hsplit.2
      · rintro ⟨hall, hl⟩
        refine ⟨?_, hl⟩
        intro pre x post hsplit
        exact hall (e :: pre) x post (by rw [hsplit]; rfl)
    · simp only [h, Bool.not_false, if_true, Bool.false_eq_true, false_iff, not_and]
      intro hall
      exact absurd (hall [] e (e1 :: rest1) rfl) h

theorem decompress_loop_first_failure {σ : Type} (sys : System σ) (HX : Bool)
    (destination : CStr) (last : UnzEnd) :
    ∀ (pre : List UnzEntry) (e : UnzEntry) (post : List UnzEntry) (x : UnzEntry)
      (rest : List UnzEntry) (s : σ),
      x :: rest = pre ++ e :: post →
      (∀ pre1 e1 post1, pre = pre1 ++ e1 :: post1 →
        (unzip_current_file sys HX e1 destination
          (extract_all sys HX destination pre1 s)).2 = true) →
      (unzip_current_file sys HX e destination
        (extract_all sys HX destination pre s)).2 = false →
      decompress_loop sys HX destination last x rest s
        = ((unzip_current_file sys HX e destination
            (extract_all sys HX destination pre s)).1, false) := by
  intro pre
  induction pre with
  | nil =>
    intro e post x rest s hsplit _ hfail
    simp only [List.nil_append, List.cons.injEq] at hsplit
    obtain ⟨rfl, rfl⟩ := hsplit
    rw [decompress_loop_eq]
    simp only [extract_all] at hfail ⊢
    simp [hfail]
  | cons y ys ih =>
    intro e post x rest s hsplit hpre hfail
    simp only [List.cons_append, List.cons.injEq] at hsplit
    obtain ⟨rfl, hrest⟩ := hsplit
    have hx : (unzip_current_file sys HX x destination s).2 = true := hpre [] x ys rfl
    rw [decompress_loop_eq]
    simp only [hx, Bool.not_true, Bool.false_eq_true, if_false]
    cases rest with
    | nil =>
      exfalso
      cases ys <;> simp at hrest
    | cons e1 rest1 =>
      simp only []
      exact ih e post e1 rest1 _ hrest
        (fun pre1 e2 post1 hs => hpre (x :: pre1) e2 post1 (by rw [hs]; rfl)) hfail

/-- C6: `decompress_path` reports success exactly when `make_dirs` created the
destination root, `unzOpen` opened the archive (and the read buffer was
allocated), the archive has a first entry, every entry was extracted
successfully in stored order, each on the state the earlier ones left, and the
iterator ended with "end of list"; and when an entry fails after the entries
before it succeeded, the call fails in the state that entry left, whatever
entries follow it. -/
theorem decompress_path_success_iff {σ : Type} (sys : System σ) (HX : Bool) (w : UnzWorld)
    (destination : CStr) (s : σ) :
    ((decompress_path sys HX w destination s).2 = true ↔
      (make_dirs sys none destination s).2 = true ∧ w.unzOpen_ok = true ∧
      (sys.call (make_dirs sys none destination s).1 (SysCall.malloc BUFFER_SIZE)).2 ≠ 0 ∧
      w.entries ≠ [] ∧
      (∀ pre e post, w.entries = pre ++ e :: post →
        (unzip_current_file sys HX e destination
          (extract_all sys HX destination pre
            (sys.call (make_dirs sys none destination s).1
              (SysCall.malloc BUFFER_SIZE)).1)).2 = true) ∧
      w.last = UnzEnd.UNZ_END_OF_LIST_OF_FILE) ∧
    (∀ pre e post, w.entries = pre ++ e :: post →
      (make_dirs sys none destination s).2 = true → w.unzOpen_ok = true →
      (sys.call (make_dirs sys none destination s).1 (SysCall.malloc BUFFER_SIZE)).2 ≠ 0 →
      (∀ pre1 e1 post1, pre = pre1 ++ e1 :: post1 →
        (unzip_current_file sys HX e1 destination
          (extract_all sys HX destination pre1
            (sys.call (make_dirs sys none destination s).1
              (SysCall.malloc BUFFER_SIZE)).1)).2 = true) →
      (unzip_current_file sys HX e destination
        (extract_all sys HX destination pre
          (sys.call (make_dirs sys none destination s).1
            (SysCall.malloc BUFFER_SIZE)).1)).2 = false →
      decompress_path sys HX w destination s
        = ((unzip_current_file sys HX e destination
            (extract_all sys HX destination pre
              (sys.call (make_dirs sys none destination s).1
                (SysCall.malloc BUFFER_SIZE)).1)).1, false)) := by
  constructor
  · unfold decompress_path
    by_cases h1 : (make_dirs sys none destination s).2 = true
    swap
    · simp [h1]
    by_cases h2 : w.unzOpen_ok = true
    swap
    · simp [h1, h2]
    by_cases h3 : (sys.call (make_dirs sys none destination s).1
        (SysCall.malloc BUFFER_SIZE)).2 = 0
    · simp [h1, h2, h3]
    simp only [h1, h2, h3, Bool.not_true, Bool.false_eq_true, if_false, true_and, ne_eq,
      not_false_eq_true]
    cases hent : w.entries with
    | nil => simp
    | cons e rest =>
      simp only []
      rw [decompress_loop_true_iff]
      simp
  · intro pre e post hsplit h1 h2 h3 hpre hfail
    unfold decompress_path
    simp only [h1, h2, h3, Bool.not_true, Bool.false_eq_true, if_false]
    cases hent : w.entries with
    | nil =>
      rw [hent] at hsplit
      cases pre <;> simp at hsplit
    | cons x rest =>
      simp only []
      rw [hent] at hsplit
      exact decompress_loop_first_failure sys HX destination w.last pre e post x rest _ hsplit
        hpre hfail

/-! ## The round trip: compression of a readable tree -/

theorem chunks_flatten {α : Type} (n : Nat) :
    ∀ (fuel : Nat) (c : List α), (chunks n fuel c).flatten = c := by
  intro fuel
  induction fuel with
  | zero => intro c; simp [chunks]
  | succ fuel ih =>
    intro c
    rw [chunks]
    split
    · simp
    · simp [ih]

theorem shifted_mode_small (m : Nat) (h : m < 2 ^ 16) : m * 2 ^ 16 % 2 ^ 64 = m * 2 ^ 16 := by
  apply Nat.mod_eq_of_lt
  have : m * 2 ^ 16 < 2 ^ 16 * 2 ^ 16 := by
    apply Nat.mul_lt_mul_of_lt_of_le h (le_refl _) (by norm_num)
  calc m * 2 ^ 16 < 2 ^ 16 * 2 ^ 16 := this
    _ ≤ 2 ^ 64 := by norm_num

theorem length_le_ensureSep (p : CStr) : p.length ≤ (ensureSep p).length := by
  unfold ensureSep
  split <;> simp

/-- `combine_paths` of a directory path and a name without separator. -/
theorem combine_paths_pair (PM : Nat) (a d : CStr) (hfit : (dirPrefix a).length + 2 ≤ PM)
    (hd : '/' ∉ d) : combine_paths PM [a, d] = (true, dirPrefix a ++ d) := by
  have h1 : ('/' :: stripLead a).length + 2 ≤ PM :=
    le_trans (Nat.add_le_add_right (length_le_ensureSep _) 2) hfit
  have h0 : (['/'] : CStr).length + 2 ≤ PM := by
    simp only [List.length_cons] at h1
    simp
    omega
  unfold combine_paths
  rw [combine_paths_loop_cons PM ['/'] a [d] (by simp) h0]
  have he : ensureSep ['/'] ++ stripLead a = '/' :: stripLead a := by
    simp [ensureSep]
  rw [he, combine_paths_loop_cons PM _ d [] (by simp) h1, stripLead_of_not_mem d hd]
  simp [combine_paths_loop, dirPrefix]

theorem traceSystem_call (ret : List SysCall → SysCall → Nat) (s : List SysCall) (c : SysCall) :
    (traceSystem ret).call s c = (s ++ [c], ret s c) := rfl

theorem components_cons_sep (p : CStr) : components ('/' :: p) = components p := by
  simp [components, componentsFrom]

/-- A directory with the files `a`, `b`, `c`, of which `b` cannot be opened:
the walk fails at `b`, `c` is not looked at, and `compress_path` reports
failure after the entry of `a` and the opened entry of `b`. -/
theorem compress_failure_propagation_witness :
    (compress_directory_loop 1024 false (fun _ => true) [] "T/".toList "/T".toList 6
      [("a".toList, Node.file DType.DT_REG readableFile none),
       ("b".toList, Node.file DType.DT_REG unreadableFile none)]).1 = false ∧
    compress_directory_loop 1024 false (fun _ => true) [] "T/".toList "/T".toList 6
      ([("a".toList, Node.file DType.DT_REG readableFile none),
        ("b".toList, Node.file DType.DT_REG unreadableFile none)] ++
       [("c".toList, Node.file DType.DT_REG readableFile none)])
      = compress_directory_loop 1024 false (fun _ => true) [] "T/".toList "/T".toList 6
        [("a".toList, Node.file DType.DT_REG readableFile none),
         ("b".toList, Node.file DType.DT_REG unreadableFile none)] ∧
    compress_path 1024 false (fun _ => true)
      { lstat_ok := true, st_mode := 0o040755, zipOpen_ok := true, malloc_ok := true,
        relative_path := [], src := unreadableFile, packed := none,
        tree := Node.dir true
          [("a".toList, Node.file DType.DT_REG readableFile none),
           ("b".toList, Node.file DType.DT_REG unreadableFile none),
           ("c".toList, Node.file DType.DT_REG readableFile none)] } "/T".toList 6
      = (false,
          [ZipCall.zipOpenNewFileInZip2 "/T/a".toList 0 (0o100644 * 2 ^ 16) Z_DEFLATED 6,
           ZipCall.zipWriteInFileInZip "hi".toList 2, ZipCall.zipCloseFileInZip,
           ZipCall.zipOpenNewFileInZip2 "/T/b".toList 0 (0o100000 * 2 ^ 16) Z_DEFLATED 6,
           ZipCall.zipCloseFileInZip, ZipCall.zipClose]) := by
  have hfail : (compress_directory_loop 1024 false (fun _ => true) [] "T/".toList "/T".toList 6
      [("a".toList, Node.file DType.DT_REG readableFile none),
       ("b".toList, Node.file DType.DT_REG unreadableFile none)]).1 = false := by decide
  exact ⟨hfail,
    (compress_failure_propagation 1024 false (fun _ => true) 6).1 "T/".toList "/T".toList [] _ _
      hfail,
    by decide⟩

/-- An archive of three entries of which the second cannot be opened:
`decompress_path` fails in the state the second entry left, and the third
entry is not written. -/
theorem decompress_path_success_iff_witness :
    decompress_path (traceSystem idealRet) false
      { unzOpen_ok := true,
        entries := [sampleUnzEntry "/T/a".toList true, sampleUnzEntry "/T/b".toList false,
          sampleUnzEntry "/T/c".toList true],
        last := UnzEnd.UNZ_END_OF_LIST_OF_FILE } "/out/".toList []
      = ([SysCall.malloc 7, SysCall.mkdir "/out".toList 0, SysCall.malloc 16384,
          SysCall.stat "/out/".toList, SysCall.malloc 10, SysCall.mkdir "/out/T".toList 0o040755,
          SysCall.fopen "/out//T/a".toList ['w'],
          SysCall.fwrite "/out//T/a".toList "hi".toList 2,
          SysCall.chmod "/out//T/a".toList 0o100644,
          SysCall.fclose "/out//T/a".toList], false) := by
  have h := (decompress_path_success_iff (traceSystem idealRet) false
      { unzOpen_ok := true,
        entries := [sampleUnzEntry "/T/a".toList true, sampleUnzEntry "/T/b".toList false,
          sampleUnzEntry "/T/c".toList true],
        last := UnzEnd.UNZ_END_OF_LIST_OF_FILE } "/out/".toList []).2
    [sampleUnzEntry "/T/a".toList true] (sampleUnzEntry "/T/b".toList false)
    [sampleUnzEntry "/T/c".toList true] rfl (by decide) rfl (by decide)
    (by
      intro pre1 e1 post1 hsplit
      cases pre1 with
      | nil =>
        simp only [List.nil_append, List.cons.injEq] at hsplit
        rw [← hsplit.1]
        decide
      | cons y ys =>
        simp only [List.cons_append, List.cons.injEq] at hsplit
        exact absurd hsplit.2 (by simp))
    (by decide)
  rw [h]
  decide

/-! ## `combine_paths`: the length test -/

/-- C3: the length test of `combine_paths` looks at the buffer before a segment
is appended, never at the result.  A directory path of `PATH_MAX - 3`
characters combined with a name of 10 characters, as `compress_directory`
combines them, is accepted, and the returned path has `PATH_MAX + 8`
characters; so is a single segment of `PATH_MAX` characters, with a returned
path of `PATH_MAX + 1` characters. -/
theorem combine_paths_overlong_succeeds (n : Nat) :
    combine_paths (n + 5) ['/' :: List.replicate (n + 1) 'a', List.replicate 10 'b']
        = (true, '/' :: List.replicate (n + 1) 'a' ++ '/' :: List.replicate 10 'b') ∧
      ('/' :: List.replicate (n + 1) 'a').length = (n + 5) - 3 ∧
      ('/' :: List.replicate (n + 1) 'a' ++ '/' :: List.replicate 10 'b').length = (n + 5) + 8 ∧
    combine_paths (n + 5) [List.replicate (n + 5) 'a']
        = (true, '/' :: List.replicate (n + 5) 'a') ∧
      ('/' :: List.replicate (n + 5) 'a').length = (n + 5) + 1 := by
  have hs : ∀ k, stripLead (List.replicate k 'a') = List.replicate k 'a' := by
    intro k
    apply stripLead_of_not_mem
    simp [List.mem_replicate]
  have hd : dirPrefix ('/' :: List.replicate (n + 1) 'a')
      = '/' :: List.replicate (n + 1) 'a' ++ ['/'] := by
    unfold dirPrefix
    have h1 : stripLead ('/' :: List.replicate (n + 1) 'a') = List.replicate (n + 1) 'a' := rfl
    rw [h1]
    apply ensureSep_of_ne
    have := getLast?_append_sepfree ['/'] (List.replicate (n + 1) 'a') (by simp)
      (by simp [List.mem_replicate])
    simpa using this
  refine ⟨?_, by simp, by simp, ?_, by simp⟩
  · rw [combine_paths_pair (n + 5) _ _ (by rw [hd]; simp) (by simp [List.mem_replicate]), hd]
    simp
  · unfold combine_paths
    rw [combine_paths_loop_cons (n + 5) ['/'] _ [] (by simp) (by simp), hs]
    simp [ensureSep, combine_paths_loop]

end OSXZip
